import Mathlib

/-!
Verification development for the file-backed data store of the dreo
kitchen-ops app.  The definitions below are shallow embeddings of
`common/db.py`, `common/data_layer.py`, `common/locking.py`,
`common/team_state.py`, `common/constants.py`, and the vendor-catalog merge
step of `pages/upload_catalogs.py`.  Machine behaviour that the claims
depend on (stable multi-column sorts, first-occurrence duplicate dropping,
Python `max` keeping the first maximal element, exclusive-create lock
polling, temp-file-then-rename writes) is embedded explicitly; strings are
compared by code points, as Python compares `str` values.
-/

/- ===== Generic list machinery ===== -/

/-- Insert `x` into `l` in front of the first element `y` with `le x y`.
With `le` a total preorder this is the insertion step of a stable sort:
an element is placed before every later element it ties with. -/
def ordInsert (le : α → α → Bool) (x : α) : List α → List α
  | [] => [x]
  | y :: ys => if le x y then x :: y :: ys else y :: ordInsert le x ys

/-- Stable insertion sort by the total preorder `le`.  A stable sort is
uniquely determined by the preorder and the input order, so this embeds
the stable lexicographic sort that pandas `sort_values` performs for
multi-column keys. -/
def stableSort (le : α → α → Bool) : List α → List α
  | [] => []
  | x :: xs => ordInsert le x (stableSort le xs)

/-- Python `max(iterable, key=...)`: the running maximum is replaced only
on a strictly greater key, so the first maximal element of the list wins
ties.  Returns `none` exactly on the empty list (where Python raises). -/
def pyMax (lt : α → α → Bool) : List α → Option α
  | [] => none
  | x :: xs => some (xs.foldl (fun best y => if lt best y then y else best) x)

/-- Specification form of `pyMax`: the first element of `l` that no element
of `l` strictly exceeds. -/
def firstMax (lt : α → α → Bool) (l : List α) : Option α :=
  l.find? (fun g => l.all (fun h => !lt g h))

/- ===== Error values ===== -/

/-- Error values standing for the Python exception classes raised or caught
by the embedded code.  `lockTimeout` stands for `locking.Timeout`, declared
as `class Timeout(TimeoutError)` (locking.py line 29), the only variant that
is a `TimeoutError`. -/
inductive PyError where
  | lockTimeout
  | fileExists
  | fileNotFound
  | emptyDataError
  | parserError
  | valueError
deriving DecidableEq

/-- Membership of the modelled exception value in Python class
`TimeoutError`: only `locking.Timeout` is a `TimeoutError` subclass. -/
def isTimeoutError : PyError → Bool
  | .lockTimeout => true
  | _ => false

/- ===== Advisory lock (locking.py) ===== -/

/-- Filesystem state seen by `locking.FileLock`: whether the sentinel lock
file exists, and the bytes of the resource the lock protects.  The claims
consider a sentinel held by another process for longer than the acquire
timeout, so the sentinel stays present throughout the poll window. -/
structure LockFS where
  sentinelExists : Bool
  resource : List String
deriving DecidableEq

/-- Poll loop of `locking.FileLock.acquire` (locking.py lines 62-84), with
time counted in poll ticks.  Each iteration attempts
`os.open(path, O_CREAT | O_EXCL | O_RDWR)`, which fails with
`FileExistsError` while the sentinel exists; after a failed attempt the
loop raises `Timeout` once `monotonic()` passed the deadline, otherwise it
sleeps one poll interval and retries.  On success the sentinel is created
and the call returns.  The result pairs the raised-or-returned outcome with
the filesystem state after the call. -/
def fileLockAcquire (st : LockFS) (deadline : Nat) (now : Nat) :
    Except PyError Unit × LockFS :=
  if st.sentinelExists then
    if _h : deadline < now then (.error .lockTimeout, st)
    else fileLockAcquire st deadline (now + 1)
  else (.ok (), { st with sentinelExists := true })
termination_by deadline + 1 - now
decreasing_by omega

/- ===== read_table variants (db.py, data_layer.py) ===== -/

/-- A parsed table: rows of string cells, header included. -/
abbrev Table := List (List String)

/-- Observable states of the CSV file behind a table read: absent,
well-formed, empty (no columns at all), or present but unparsable
(for example a truncated or ragged CSV). -/
inductive CsvFile where
  | missing
  | wellFormed (t : Table)
  | emptyData
  | malformed
deriving DecidableEq

/-- `pandas.read_csv` on the file states of `CsvFile`: a missing file
raises `FileNotFoundError`, an empty file raises
`pandas.errors.EmptyDataError`, an unparsable file raises
`pandas.errors.ParserError`. -/
def pd_read_csv : CsvFile → Except PyError Table
  | .missing => .error .fileNotFound
  | .wellFormed t => .ok t
  | .emptyData => .error .emptyDataError
  | .malformed => .error .parserError

/-- `db.read_table` (db.py lines 123-133): a missing file yields an empty
dataframe; `pd.read_csv` is guarded by `except pd.errors.EmptyDataError`
only, so every other read failure propagates. -/
def db_read_table (f : CsvFile) : Except PyError Table :=
  if f = .missing then .ok []
  else
    match pd_read_csv f with
    | .error .emptyDataError => .ok []
    | r => r

/-- `data_layer.read_table` (data_layer.py lines 24-37): a missing file
yields an empty dataframe; the read is guarded by `except Exception`, which
reports the error to the UI and returns an empty dataframe. -/
def dl_read_table (f : CsvFile) : Except PyError Table :=
  if f = .missing then .ok []
  else
    match pd_read_csv f with
    | .error _ => .ok []
    | r => r

/- ===== Atomic table write (db.py) ===== -/

/-- Filesystem state around one table path: the committed content at the
target path, the content at the sibling temp path, and whether the
path lock is held by another process. -/
structure TableFS where
  target : Option (List String)
  temp : Option (List String)
  lockBusy : Bool
deriving DecidableEq

/-- A file path split into directory segments and a file name. -/
structure PathName where
  dir : List String
  fname : String
deriving DecidableEq

/-- `target.with_suffix(target.suffix + ".tmp")` (db.py line 118): replacing
the final suffix of the name with that same suffix plus `".tmp"` appends
`".tmp"` to the file name and keeps the directory. -/
def tmpPath (p : PathName) : PathName := { p with fname := p.fname ++ ".tmp" }

/-- One write step of `df.to_csv(temp_path)` inside `db._atomic_write`
(db.py lines 117-120): an interruptible serialisation that leaves a prefix
of the serialized rows in the temp file; the target path is not touched. -/
def tempWriteStep (df : List String) (i : Nat) (fs : TableFS) : TableFS :=
  { fs with temp := some (df.take i) }

/-- The final `temp_path.replace(target)` of `db._atomic_write`: an atomic
rename of the temp file onto the target path. -/
def renameStep (fs : TableFS) : TableFS :=
  { fs with target := fs.temp, temp := none }

/-- The filesystem steps of `db._atomic_write target df`: successive temp
writes of ever longer prefixes of `df`, then the rename. -/
def atomicWriteSteps (df : List String) : List (TableFS → TableFS) :=
  ((List.range (df.length + 1)).map (tempWriteStep df)) ++ [renameStep]

/-- Run the first steps of a step list against a filesystem state. -/
def runSteps (fs : TableFS) (steps : List (TableFS → TableFS)) : TableFS :=
  steps.foldl (fun s f => f s) fs

/-- `db._atomic_write` run to completion. -/
def atomic_write (fs : TableFS) (df : List String) : TableFS :=
  runSteps fs (atomicWriteSteps df)

/-- `db.write_table` (db.py lines 136-143): acquire the per-path lock
(raising `Timeout` if it stays busy past the timeout), run
`_atomic_write`, clear the process-local caches (no on-disk effect),
release the lock. -/
def write_table (fs : TableFS) (df : List String) : Except PyError TableFS :=
  if fs.lockBusy then .error .lockTimeout else .ok (atomic_write fs df)

/- ===== Code-point string comparison (Python str ordering) ===== -/

/-- Strict lexicographic order on character lists by code point, which is
how Python compares `str` values and hence how pandas sorts string
columns. -/
def chLt : List Char → List Char → Bool
  | [], [] => false
  | [], _ :: _ => true
  | _ :: _, [] => false
  | c :: cs, d :: ds =>
    if c.toNat < d.toNat then true
    else if d.toNat < c.toNat then false
    else chLt cs ds

/-- Python `a < b` on strings. -/
def strLt (a b : String) : Bool := chLt a.data b.data

/- ===== Catalog merge (pages/upload_catalogs.py) ===== -/

/-- One normalized catalog row, restricted to the fields the merge reads:
the natural key `(vendor, item_number)`, the parsed `price_date`
(minutes, `none` for a missing/unparsable date, i.e. `NaT`), and
`case_cost` in cents.  The merge never inspects the remaining columns. -/
structure CatalogRow where
  vendor : String
  item_number : String
  price_date : Option Int
  case_cost : Int
deriving DecidableEq

/-- The natural key used by `drop_duplicates(subset=["vendor", "item_number"])`. -/
def rowKey (r : CatalogRow) : String × String := (r.vendor, r.item_number)

/-- Sort-position comparison of two `price_date` cells under
`ascending=False, na_position="last"`: a cell sorts at-or-before another
when its date is at least as recent, and `NaT` sorts after every date. -/
def dateKeyLe : Option Int → Option Int → Bool
  | some x, some y => decide (y ≤ x)
  | some _, none => true
  | none, some _ => false
  | none, none => true

/-- Sort-position comparison for
`sort_values(by=["vendor", "item_number", "price_date"],
ascending=[True, True, False], na_position="last")`
(upload_catalogs.py lines 211-215). -/
def mergeLe (a b : CatalogRow) : Bool :=
  if strLt a.vendor b.vendor then true
  else if strLt b.vendor a.vendor then false
  else if strLt a.item_number b.item_number then true
  else if strLt b.item_number a.item_number then false
  else dateKeyLe a.price_date b.price_date

/-- Sort-position comparison for
`sort_values(by=["item_number", "price_date"], ascending=[True, False],
na_position="last")` (upload_catalogs.py line 155). -/
def batchLe (a b : CatalogRow) : Bool :=
  if strLt a.item_number b.item_number then true
  else if strLt b.item_number a.item_number then false
  else dateKeyLe a.price_date b.price_date

/-- First row of `l` with natural key `k`. -/
def keyFind (k : String × String) (l : List CatalogRow) : Option CatalogRow :=
  l.find? (fun r => decide (rowKey r = k))

/-- All rows of `l` with natural key `k`, in order. -/
def keyGroup (k : String × String) (l : List CatalogRow) : List CatalogRow :=
  l.filter (fun r => decide (rowKey r = k))

/-- The first row of `l` with key `k` whose `price_date` is maximal among
the key-`k` rows of `l` (`NaT` counting as least recent).  This is the row
a stable most-recent-first sort followed by keep-first deduplication
retains for `k`. -/
def bestRow (k : String × String) (l : List CatalogRow) : Option CatalogRow :=
  (keyGroup k l).find?
    (fun r => (keyGroup k l).all (fun s => dateKeyLe r.price_date s.price_date))

/-- `drop_duplicates(subset=["vendor", "item_number"], keep="first")`:
walk the rows in order, keeping a row only when its key has not been seen
yet. -/
def dropDupAux (seen : List (String × String)) : List CatalogRow → List CatalogRow
  | [] => []
  | r :: rs =>
    if rowKey r ∈ seen then dropDupAux seen rs
    else r :: dropDupAux (rowKey r :: seen) rs

/-- Keep-first duplicate dropping on the natural key. -/
def dropDupKey (l : List CatalogRow) : List CatalogRow := dropDupAux [] l

/-- Preparation of an upload batch before the save step
(upload_catalogs.py lines 127-156): rows whose `price_date` failed to parse
are dropped and logged, rows with `case_cost <= 0` are dropped and logged,
and the remainder is sorted by `(item_number asc, price_date desc)` and
deduplicated keep-first on the natural key. -/
def prepBatch (batch : List CatalogRow) : List CatalogRow :=
  dropDupKey (stableSort batchLe
    (batch.filter (fun r => r.price_date ≠ none && 0 < r.case_cost)))

/-- The merge of the save step (upload_catalogs.py lines 210-216):
concatenate the existing normalized catalog with the prepared batch, sort
by `(vendor asc, item_number asc, price_date desc)` stably, and drop
duplicate natural keys keeping the first row. -/
def mergeSave (existing batch : List CatalogRow) : List CatalogRow :=
  dropDupKey (stableSort mergeLe (existing ++ prepBatch batch))

/-- Round trip of a `price_date` through persistence: `_format_price_date`
(upload_catalogs.py lines 36-47, 217-219) writes only `value.date()` as an
ISO string, and re-reading parses it back as midnight of that day, so the
time-of-day component is floored away.  Time is counted in minutes, so a
day is 1440 minutes; `NaT` is written as the empty string and parses back
to `NaT`. -/
def truncDate : Option Int → Option Int
  | none => none
  | some t => some (Int.ediv t 1440 * 1440)

/-- The persisted image of a merged row: its `price_date` survives only at
day precision. -/
def persistRow (r : CatalogRow) : CatalogRow :=
  { r with price_date := truncDate r.price_date }

/-- The catalog table as it exists on disk after the save step: the merge
result, with each `price_date` reduced to its date. -/
def savedCatalog (existing batch : List CatalogRow) : List CatalogRow :=
  (mergeSave existing batch).map persistRow

/- ===== Character-level string helpers (Python str methods) ===== -/

/-- ASCII whitespace as recognised by Python `str.strip` and `str.split`. -/
def isWs (c : Char) : Bool :=
  c = ' ' || c = '\t' || c = '\n' || c = '\r' || c = '\x0b' || c = '\x0c'

/-- Python `str.strip()`. -/
def trimCh (l : List Char) : List Char :=
  ((l.dropWhile isWs).reverse.dropWhile isWs).reverse

/-- Python `str.split()` with no separator: maximal runs of
non-whitespace, empty pieces discarded.  `acc` holds the reversed current
word. -/
def wordsAcc (acc : List Char) : List Char → List (List Char)
  | [] => if acc = [] then [] else [acc.reverse]
  | c :: cs =>
    if isWs c then
      if acc = [] then wordsAcc [] cs else acc.reverse :: wordsAcc [] cs
    else wordsAcc (c :: acc) cs

/-- Python `" ".join(words)`. -/
def joinSp : List (List Char) → List Char
  | [] => []
  | [w] => w
  | w :: ws => w ++ ' ' :: joinSp ws

/-- ASCII lower-casing, the fragment of Python `str.lower`/`str.casefold`
exercised here. -/
def toLowerCh (l : List Char) : List Char := l.map Char.toLower

/- ===== Shared workspace store (team_state.py) ===== -/

/-- A JSON value.  Arrays and objects carry their elements as inline cons
lists (`arrNil`/`arr`, `objNil`/`obj`) so that all recursion over the tree
is structural. -/
inductive Json where
  | null
  | bool (b : Bool)
  | num (n : Int)
  | str (s : String)
  | arrNil
  | arr (hd : Json) (tl : Json)
  | objNil
  | obj (key : String) (val : Json) (tl : Json)
deriving DecidableEq

/-- `team_state._json_copy` (team_state.py lines 24-29):
`json.loads(json.dumps(payload))`, which serializes the tree and parses it
back, producing a structurally rebuilt deep copy sharing nothing with its
argument.  On the JSON value model the rebuild is recursive
reconstruction. -/
def jsonCopy : Json → Json
  | .null => .null
  | .bool b => .bool b
  | .num n => .num n
  | .str s => .str s
  | .arrNil => .arrNil
  | .arr h t => .arr (jsonCopy h) (jsonCopy t)
  | .objNil => .objNil
  | .obj k v t => .obj k (jsonCopy v) (jsonCopy t)

/-- Python truthiness of a JSON value: `None`, `False`, `0`, `""`, `[]`
and `{}` are falsy. -/
def pyFalsy : Json → Bool
  | .null => true
  | .bool b => !b
  | .num n => decide (n = 0)
  | .str s => decide (s = "")
  | .arrNil => true
  | .arr _ _ => false
  | .objNil => true
  | .obj _ _ _ => false

/-- Python `payload or {}` as used by `save_workspace`
(team_state.py line 116). -/
def pyOrEmptyObj (j : Json) : Json := if pyFalsy j then .objNil else j

/-- Predicate for a JSON object (a `Dict` payload). -/
def isObj : Json → Bool
  | .objNil => true
  | .obj _ _ _ => true
  | _ => false

/-- The parsed `team_state.json` document: feature key to workspace name to
payload, in insertion order, as a Python `dict` holds it. -/
abbrev Store := List (String × List (String × Json))

/-- States of the document file: absent, present but not parseable as a
JSON object, or a valid object. -/
inductive StoreFile where
  | missing
  | corrupt
  | valid (store : Store)
deriving DecidableEq

/-- State around the workspace document: the file itself and whether
`team_state.lock` is held by another process for the window considered. -/
structure TeamFS where
  file : StoreFile
  lockBusy : Bool
deriving DecidableEq

/-- First value bound to key `k` in an insertion-ordered association
list. -/
def alFind (k : String) : List (String × β) → Option β
  | [] => none
  | (k2, v) :: rest => if k2 = k then some v else alFind k rest

/-- Python `d[k] = v` on an insertion-ordered association list: an
existing binding is updated in place, a new key is appended at the end. -/
def upsert (k : String) (v : β) : List (String × β) → List (String × β)
  | [] => [(k, v)]
  | (k2, v2) :: rest =>
    if k2 = k then (k2, v) :: rest else (k2, v2) :: upsert k v rest

/-- Python `d.pop(k, None)`: drop the binding of `k`, keeping order. -/
def alErase (k : String) : List (String × β) → List (String × β)
  | [] => []
  | (k2, v2) :: rest => if k2 = k then rest else (k2, v2) :: alErase k rest

/-- `team_state._normalize_feature` (team_state.py lines 32-36):
strip, lower-case, replace spaces with underscores, reject empty. -/
def normalize_feature (feature : String) : Except PyError String :=
  let fk := (toLowerCh (trimCh feature.data)).map
    (fun c => if c = ' ' then '_' else c)
  if fk = [] then .error .valueError else .ok (String.mk fk)

/-- `team_state._normalize_workspace` (team_state.py lines 39-43):
collapse internal whitespace to single spaces via `" ".join(s.strip().split())`,
reject empty, cap at 60 characters. -/
def normalize_workspace (name : String) : Except PyError String :=
  let cleaned := joinSp (wordsAcc [] (trimCh name.data))
  if cleaned = [] then .error .valueError else .ok (String.mk (cleaned.take 60))

/-- `team_state._read_store` (team_state.py lines 46-58): a missing file is
an empty store; otherwise the document lock is taken (a timeout is caught
and yields an empty store), and a corrupt or non-object document also
yields an empty store. -/
def read_store (st : TeamFS) : Store :=
  match st.file with
  | .missing => []
  | .corrupt => []
  | .valid s => if st.lockBusy then [] else s

/-- The body of `team_state._write_store` (team_state.py lines 61-68)
before exception handling: acquiring the document lock raises `Timeout`
while the lock stays busy; otherwise the store is dumped to
`team_state.tmp` and renamed onto the document. -/
def write_store_attempt (st : TeamFS) (store : Store) : Except PyError TeamFS :=
  if st.lockBusy then .error .lockTimeout
  else .ok { st with file := .valid store }

/-- `team_state._write_store` (team_state.py lines 61-71): the write body
wrapped in `except Timeout: pass`, so a lock timeout silently skips the
write; the outcome is paired with the resulting filesystem state. -/
def write_store (st : TeamFS) (store : Store) : Except PyError Unit × TeamFS :=
  match write_store_attempt st store with
  | .ok st2 => (.ok (), st2)
  | .error .lockTimeout => (.ok (), st)
  | .error e => (.error e, st)

/-- The filesystem state after `_write_store`. -/
def writeStoreFS (st : TeamFS) (store : Store) : TeamFS := (write_store st store).2

/-- The payload stored for a fresh workspace:
`_json_copy(default) if default else {}` (team_state.py line 91). -/
def ensureStored (default : Option Json) : Json :=
  match default with
  | none => .objNil
  | some d => if pyFalsy d then .objNil else jsonCopy d

/-- The value `load_workspace` returns for a fresh workspace:
`_json_copy(default)`, where `_json_copy(None)` is `{}`. -/
def loadDefault (default : Option Json) : Json :=
  match default with
  | none => .objNil
  | some d => jsonCopy d

/-- `team_state.ensure_workspace` (team_state.py lines 83-93): normalize
both names, and if the workspace is absent, store the default payload and
persist; the normalized workspace name is returned with the resulting
state. -/
def ensure_workspace (st : TeamFS) (feature name : String)
    (default : Option Json) : Except PyError (String × TeamFS) := do
  let fk ← normalize_feature feature
  let wn ← normalize_workspace name
  let store := read_store st
  let bucket := (alFind fk store).getD []
  match alFind wn bucket with
  | some _ => .ok (wn, st)
  | none => .ok (wn, writeStoreFS st (upsert fk (upsert wn (ensureStored default) bucket) store))

/-- `team_state.load_workspace` (team_state.py lines 96-106): return a deep
copy of the stored payload; a missing workspace is created via
`ensure_workspace` with the default and a deep copy of the default is
returned. -/
def load_workspace (st : TeamFS) (feature name : String)
    (default : Option Json) : Except PyError (Json × TeamFS) := do
  let fk ← normalize_feature feature
  let wn ← normalize_workspace name
  let store := read_store st
  match alFind wn ((alFind fk store).getD []) with
  | some payload => .ok (jsonCopy payload, st)
  | none =>
    match ensure_workspace st fk wn default with
    | .error e => .error e
    | .ok (_, st2) => .ok (loadDefault default, st2)

/-- `team_state.save_workspace` (team_state.py lines 109-117): normalize
both names, deep-copy `payload or {}` into the document, persist. -/
def save_workspace (st : TeamFS) (feature name : String) (payload : Json) :
    Except PyError TeamFS := do
  let fk ← normalize_feature feature
  let wn ← normalize_workspace name
  let store := read_store st
  let bucket := (alFind fk store).getD []
  .ok (writeStoreFS st (upsert fk (upsert wn (jsonCopy (pyOrEmptyObj payload)) bucket) store))

/-- `team_state.delete_workspace` (team_state.py lines 120-135): remove the
workspace if present; if its feature bucket becomes empty, drop the feature
key entirely. -/
def delete_workspace (st : TeamFS) (feature name : String) :
    Except PyError TeamFS := do
  let fk ← normalize_feature feature
  let wn ← normalize_workspace name
  let store := read_store st
  match alFind fk store with
  | none => .ok st
  | some bucket =>
    match alFind wn bucket with
    | none => .ok st
    | some _ =>
      let bucket2 := alErase wn bucket
      if bucket2 = [] then .ok (writeStoreFS st (alErase fk store))
      else .ok (writeStoreFS st (upsert fk bucket2 store))

/-- Comparison used by `sorted(workspaces, key=str.casefold)`
(team_state.py line 80): position by case-folded code-point order, ties
keeping input order. -/
def caseLe (a b : String) : Bool := !chLt (toLowerCh b.data) (toLowerCh a.data)

/-- `team_state.list_workspaces` (team_state.py lines 74-80): the
preserved-case workspace names of a feature, stably sorted with a
case-insensitive key. -/
def list_workspaces (st : TeamFS) (feature : String) :
    Except PyError (List String) := do
  let fk ← normalize_feature feature
  .ok (stableSort caseLe (((alFind fk (read_store st)).getD []).map Prod.fst))

/- ===== Latest snapshot (db.py, data_layer.py) ===== -/

/-- One directory entry as seen by `Path.glob`: name, modification time,
and whether it is a regular file.  `glob` yields entries in the arbitrary
order of the underlying directory listing, so the embedding takes the
listing order as input. -/
structure DirEntry where
  name : String
  mtime : Nat
  isFile : Bool
deriving DecidableEq

/-- Python `name.endswith(".csv")`. -/
def hasCsvExt (s : String) : Bool := ".csv".data.isSuffixOf s.data

/-- The candidate files of `db.latest_file`:
`[p for p in directory.glob("*.csv") if p.is_file()]`. -/
def csvFiles (entries : List DirEntry) : List DirEntry :=
  entries.filter (fun p => p.isFile && hasCsvExt p.name)

/-- Strict comparison of entries by modification time. -/
def mtimeLt (a b : DirEntry) : Bool := decide (a.mtime < b.mtime)

/-- `db.latest_file` (db.py lines 256-260):
`max(files, key=lambda p: p.stat().st_mtime)` over the `*.csv` regular
files, or `None` when there are none. -/
def latest_file (entries : List DirEntry) : Option DirEntry :=
  pyMax mtimeLt (csvFiles entries)

/-- `Path.stem` of a `.csv` file name: the name without its final
four-character extension. -/
def stemOf (s : String) : List Char := s.data.take (s.data.length - 4)

/-- Membership in `dir_path.glob(f"{name}_*.csv")`: the entry name starts
with `name_`, ends with `.csv`, and is long enough for the pattern. -/
def snapMatches (name : String) (p : DirEntry) : Bool :=
  (name.data ++ ['_']).isPrefixOf p.name.data && hasCsvExt p.name &&
    decide (name.data.length + 5 ≤ p.name.data.length)

/-- Strict comparison of entries by the code-point order of their stems. -/
def stemLt (a b : DirEntry) : Bool := chLt (stemOf a.name) (stemOf b.name)

/-- The file-selection step of `data_layer.get_latest_snapshot`
(data_layer.py lines 79-101): glob `{name}_*.csv`, return `None` when
nothing matches, otherwise `max(files, key=lambda x: x.stem)` — the
lexicographically greatest stem, with no use of modification time. -/
def get_latest_snapshot (name : String) (entries : List DirEntry) :
    Option DirEntry :=
  pyMax stemLt (entries.filter (snapMatches name))

/- ===== Path resolution (db.py _resolve, constants.py slugify) ===== -/

/-- Split a character list on `/`, discarding empty pieces, as
`PurePath` parsing does.  `acc` holds the reversed current segment. -/
def segsAcc (acc : List Char) : List Char → List (List Char)
  | [] => if acc = [] then [] else [acc.reverse]
  | c :: cs =>
    if c = '/' then
      if acc = [] then segsAcc [] cs else acc.reverse :: segsAcc [] cs
    else segsAcc (c :: acc) cs

/-- Path segments of a string path: split on `/`, drop empty and `.`
segments (which `PurePath` normalizes away), keep `..` segments (which it
does not). -/
def parseSegs (s : String) : List String :=
  ((segsAcc [] s.data).map (fun l => String.mk l)).filter (fun seg => seg ≠ ".")

/-- Python `Path.is_absolute` on POSIX: the string starts with `/`. -/
def isAbsStr (s : String) : Bool :=
  match s.data with
  | [] => false
  | c :: _ => decide (c = '/')

/-- The configured root data directory, `DATA_ROOT = Path("data")`
(constants.py line 30, default when `DREO_DATA_DIR` is unset). -/
def DATA_ROOT : List String := ["data"]

/-- Python `str.strip()` on a string. -/
def strTrim (s : String) : String := String.mk (trimCh s.data)

/-- The candidate string `db._resolve` builds before prefixing the root
(db.py lines 82-86): the stripped name, with `.csv` appended unless
already present. -/
def resolveInput (path : String) : String :=
  let slug := strTrim path
  if hasCsvExt slug then slug else slug ++ ".csv"

/-- `db._resolve` (db.py lines 76-92) on a string table name: strip it,
append `.csv` unless already present, and prefix `DATA_ROOT` when the
result is relative.  The function performs no traversal check and no
normalization; it only creates parent directories.  The result is the
absoluteness flag and the raw segment list of the returned path. -/
def resolvePath (path : String) : Bool × List String :=
  if isAbsStr (resolveInput path) then (true, parseSegs (resolveInput path))
  else (false, DATA_ROOT ++ parseSegs (resolveInput path))

/-- Lexical normalization of a segment list: a `..` segment removes the
preceding segment. -/
def normSegs (segs : List String) : List String :=
  segs.foldl (fun acc seg => if seg = ".." then acc.dropLast else acc ++ [seg]) []

/-- Whether a resolved path lies inside the root data directory: it is
relative to the same base and its normalized segments extend
`DATA_ROOT`. -/
def underRoot (p : Bool × List String) : Bool :=
  !p.1 && DATA_ROOT.isPrefixOf (normSegs p.2)

/-- Membership in `[a-z0-9]`, the characters `constants.slugify` keeps. -/
def isSlugChar (c : Char) : Bool :=
  (decide (97 ≤ c.toNat) && decide (c.toNat ≤ 122)) ||
    (decide (48 ≤ c.toNat) && decide (c.toNat ≤ 57))

/-- Replace every character outside `[a-z0-9]` by `-`. -/
def dashify (l : List Char) : List Char :=
  l.map (fun c => if isSlugChar c then c else '-')

/-- Collapse adjacent dashes, so that together with `dashify` every maximal
run matched by the regex `[^a-z0-9]+` becomes a single `-`. -/
def squeezeDash : List Char → List Char
  | [] => []
  | [c] => [c]
  | c :: d :: rest =>
    if c = '-' && d = '-' then squeezeDash (d :: rest)
    else c :: squeezeDash (d :: rest)

/-- Python `str.strip("-")`. -/
def stripDash (l : List Char) : List Char :=
  ((l.dropWhile (fun c => c = '-')).reverse.dropWhile (fun c => c = '-')).reverse

/-- `constants.slugify` (constants.py lines 83-88): strip and lower-case
the value, replace each `[^a-z0-9]+` run with `-`, strip dashes, and fall
back to `"vendor"` when nothing remains. -/
def slugify (value : String) : String :=
  let slug := stripDash (squeezeDash (dashify (toLowerCh (trimCh value.data))))
  if slug = [] then "vendor" else String.mk slug

/-- `constants.vendor_filename` with the default `csv` suffix
(constants.py lines 91-95). -/
def vendor_filename (vendor : String) : String := slugify vendor ++ ".csv"

/- ==================== Theorems ==================== -/

/- ===== Lock timeout (C3) ===== -/

theorem fileLockAcquire_busy (st : LockFS) (hs : st.sentinelExists = true)
    (deadline now : Nat) :
    fileLockAcquire st deadline now = (.error .lockTimeout, st) := by
  rw [fileLockAcquire]
  simp only [hs, if_true]
  split
  · rfl
  · exact fileLockAcquire_busy st hs deadline (now + 1)
termination_by deadline + 1 - now
decreasing_by omega

/-- C3: acquiring the lock while the sentinel file already exists, with a
timeout shorter than the hold duration, raises the `Timeout` error — the
only modelled `TimeoutError`, distinguishable from every other error
value — and leaves both the sentinel file and the protected resource
untouched. -/
theorem c3_lock_timeout (st : LockFS) (timeout : Nat)
    (hs : st.sentinelExists = true) :
    fileLockAcquire st timeout 0 = (.error .lockTimeout, st) ∧
    isTimeoutError .lockTimeout = true ∧
    (∀ e : PyError, isTimeoutError e = true → e = .lockTimeout) ∧
    (fileLockAcquire st timeout 0).2.sentinelExists = st.sentinelExists ∧
    (fileLockAcquire st timeout 0).2.resource = st.resource := by
  refine ⟨fileLockAcquire_busy st hs timeout 0, rfl, ?_, ?_, ?_⟩
  · intro e he
    cases e <;> simp_all [isTimeoutError]
  · rw [fileLockAcquire_busy st hs timeout 0]
  · rw [fileLockAcquire_busy st hs timeout 0]

/-- Witness for C3 at a concrete held lock and timeout. -/
theorem c3_lock_timeout_witness :
    fileLockAcquire ⟨true, ["row1,row2"]⟩ 3 0 =
      (.error .lockTimeout, ⟨true, ["row1,row2"]⟩) ∧
    isTimeoutError .lockTimeout = true ∧
    (∀ e : PyError, isTimeoutError e = true → e = .lockTimeout) ∧
    (fileLockAcquire ⟨true, ["row1,row2"]⟩ 3 0).2.sentinelExists = true ∧
    (fileLockAcquire ⟨true, ["row1,row2"]⟩ 3 0).2.resource = ["row1,row2"] :=
  c3_lock_timeout ⟨true, ["row1,row2"]⟩ 3 rfl

/- ===== read_table fallbacks (C4) ===== -/

/-- C4 counterexample: the claim says `read_table` returns an empty table
when the file exists but cannot be parsed; `db.read_table` catches only
`EmptyDataError`, so a malformed CSV propagates a `ParserError` instead of
returning an empty table. -/
theorem c4_counterexample :
    db_read_table .malformed = .error .parserError ∧
    db_read_table .malformed ≠ .ok [] := by
  constructor
  · rfl
  · intro h
    exact Except.noConfusion h

/-- C4 amended: both `read_table` variants return an empty table for a
missing file; `db.read_table` additionally returns an empty table only for
an `EmptyDataError` and propagates any other parse failure, while
`data_layer.read_table` never raises and returns an empty table on every
read failure, including a malformed file. -/
theorem c4_read_table_amended :
    db_read_table .missing = .ok [] ∧
    dl_read_table .missing = .ok [] ∧
    db_read_table .emptyData = .ok [] ∧
    (∀ t, db_read_table (.wellFormed t) = .ok t) ∧
    db_read_table .malformed = .error .parserError ∧
    (∀ f, ∃ t, dl_read_table f = .ok t) ∧
    dl_read_table .malformed = .ok [] := by
  refine ⟨rfl, rfl, rfl, fun t => rfl, rfl, ?_, rfl⟩
  intro f
  cases f <;> exact ⟨_, rfl⟩

/- ===== Workspace write skip on lock timeout (C5) ===== -/

/-- C5: when the workspace-document lock stays busy past the timeout,
`_write_store` returns normally (the `Timeout` is caught and no exception
propagates) and the filesystem state, in particular the on-disk document,
is exactly unchanged. -/
theorem c5_write_store_skip (st : TeamFS) (store : Store)
    (h : st.lockBusy = true) :
    write_store st store = (.ok (), st) ∧
    (writeStoreFS st store).file = st.file := by
  simp [write_store, write_store_attempt, writeStoreFS, h]

/-- Witness for C5 at a concrete busy lock and non-trivial document. -/
theorem c5_write_store_skip_witness :
    write_store ⟨.valid [("inventory", [("Main Floor", .objNil)])], true⟩ [] =
      (.ok (), ⟨.valid [("inventory", [("Main Floor", .objNil)])], true⟩) ∧
    (writeStoreFS ⟨.valid [("inventory", [("Main Floor", .objNil)])], true⟩ []).file =
      StoreFile.valid [("inventory", [("Main Floor", .objNil)])] :=
  c5_write_store_skip ⟨.valid [("inventory", [("Main Floor", .objNil)])], true⟩ [] rfl

/- ===== Atomic write (C1) ===== -/

theorem runSteps_append (fs : TableFS) (l1 l2 : List (TableFS → TableFS)) :
    runSteps fs (l1 ++ l2) = runSteps (runSteps fs l1) l2 :=
  List.foldl_append _ _ _ _

theorem target_runSteps_tempWrites (df : List String) :
    ∀ (js : List Nat) (fs : TableFS),
      (runSteps fs (js.map (tempWriteStep df))).target = fs.target ∧
      (runSteps fs (js.map (tempWriteStep df))).lockBusy = fs.lockBusy := by
  intro js
  induction js with
  | nil => intro fs; exact ⟨rfl, rfl⟩
  | cons j js ih =>
    intro fs
    simpa [runSteps, List.foldl_cons] using ih (tempWriteStep df j fs)

theorem temp_runSteps_range (df : List String) (m : Nat) (fs : TableFS) :
    (runSteps fs ((List.range (m + 1)).map (tempWriteStep df))).temp =
      some (df.take m) := by
  rw [List.range_succ, List.map_append, runSteps_append]
  rfl

/-- C1: `write_table` resolves the temp path as the target path with a
`.tmp`-suffixed name in the same directory, writes the serialized rows
there, and renames onto the target only as the final step: interrupting
the run at any point before the last step leaves the target file exactly
as it was, every reachable intermediate state shows the target holding
either the old or the complete new content, and the completed write
(performed by `write_table` when the lock is free) installs exactly the
new content. -/
theorem c1_write_table_atomic (fs : TableFS) (df : List String) (k : Nat)
    (p : PathName) (hk : k ≤ (atomicWriteSteps df).length) :
    ((tmpPath p).dir = p.dir ∧ (tmpPath p).fname = p.fname ++ ".tmp") ∧
    (k < (atomicWriteSteps df).length →
      (runSteps fs ((atomicWriteSteps df).take k)).target = fs.target) ∧
    ((runSteps fs ((atomicWriteSteps df).take k)).target = fs.target ∨
      (runSteps fs ((atomicWriteSteps df).take k)).target = some df) ∧
    (atomic_write fs df).target = some df ∧
    (fs.lockBusy = false → write_table fs df = .ok (atomic_write fs df)) := by
  have hlen : (atomicWriteSteps df).length = df.length + 2 := by
    simp [atomicWriteSteps]
  have hfull : (atomic_write fs df).target = some df := by
    have : atomicWriteSteps df =
        ((List.range (df.length + 1)).map (tempWriteStep df)) ++ [renameStep] := rfl
    rw [atomic_write, this, runSteps_append]
    show (renameStep (runSteps fs ((List.range (df.length + 1)).map (tempWriteStep df)))).target = some df
    rw [renameStep]
    simpa using temp_runSteps_range df df.length fs
  have hmid : k < (atomicWriteSteps df).length →
      (runSteps fs ((atomicWriteSteps df).take k)).target = fs.target := by
    intro hklt
    have hkle : k ≤ df.length + 1 := by omega
    have htake : (atomicWriteSteps df).take k =
        (((List.range (df.length + 1)).map (tempWriteStep df)).take k) := by
      rw [atomicWriteSteps]
      exact List.take_append_of_le_length (by simpa using hkle)
    rw [htake, ← List.map_take]
    exact (target_runSteps_tempWrites df _ fs).1
  refine ⟨⟨rfl, rfl⟩, hmid, ?_, hfull, ?_⟩
  · rcases Nat.lt_or_ge k (atomicWriteSteps df).length with hlt | hge
    · exact Or.inl (hmid hlt)
    · have hkeq : k = (atomicWriteSteps df).length := le_antisymm hk hge
      right
      rw [hkeq, List.take_length]
      exact hfull
  · intro hfree
    simp [write_table, hfree]

/-- Witness for C1: a two-row table written over an old one-row table,
interrupted after one step. -/
theorem c1_write_table_atomic_witness :
    1 ≤ (atomicWriteSteps ["h", "r1"]).length ∧
    (((tmpPath ⟨["data"], "t.csv"⟩).dir = ["data"] ∧
      (tmpPath ⟨["data"], "t.csv"⟩).fname = "t.csv" ++ ".tmp") ∧
    (1 < (atomicWriteSteps ["h", "r1"]).length →
      (runSteps ⟨some ["h", "old"], none, false⟩
        ((atomicWriteSteps ["h", "r1"]).take 1)).target = some ["h", "old"]) ∧
    ((runSteps ⟨some ["h", "old"], none, false⟩
        ((atomicWriteSteps ["h", "r1"]).take 1)).target = some ["h", "old"] ∨
      (runSteps ⟨some ["h", "old"], none, false⟩
        ((atomicWriteSteps ["h", "r1"]).take 1)).target = some ["h", "r1"]) ∧
    (atomic_write ⟨some ["h", "old"], none, false⟩ ["h", "r1"]).target =
      some ["h", "r1"] ∧
    (false = false → write_table ⟨some ["h", "old"], none, false⟩ ["h", "r1"] =
      .ok (atomic_write ⟨some ["h", "old"], none, false⟩ ["h", "r1"]))) :=
  ⟨by decide, c1_write_table_atomic ⟨some ["h", "old"], none, false⟩
    ["h", "r1"] 1 ⟨["data"], "t.csv"⟩ (by decide)⟩

/- ===== Generic find?/sort lemmas ===== -/

theorem find?_congr {α : Type _} {p q : α → Bool} :
    ∀ {l : List α}, (∀ a ∈ l, p a = q a) → l.find? p = l.find? q := by
  intro l
  induction l with
  | nil => intro _; rfl
  | cons x xs ih =>
    intro h
    have hx : p x = q x := h x (List.mem_cons_self _ _)
    cases hpx : p x with
    | true =>
      rw [List.find?_cons_of_pos _ hpx, List.find?_cons_of_pos _ (hx ▸ hpx)]
    | false =>
      rw [List.find?_cons_of_neg _ (by simp [hpx]),
        List.find?_cons_of_neg _ (by simp [← hx, hpx])]
      exact ih (fun a ha => h a (List.mem_cons_of_mem _ ha))

theorem find?_stronger {α : Type _} {p q : α → Bool}
    (himp : ∀ z, p z = true → q z = true) :
    ∀ {l : List α} {b : α}, l.find? q = some b → p b = true → l.find? p = some b := by
  intro l
  induction l with
  | nil => intro b h _; simp [List.find?] at h
  | cons y ys ih =>
    intro b hq hp
    cases hqy : q y with
    | true =>
      rw [List.find?_cons_of_pos _ hqy] at hq
      obtain rfl : y = b := by injection hq
      rw [List.find?_cons_of_pos _ hp]
    | false =>
      rw [List.find?_cons_of_neg _ (by simp [hqy])] at hq
      have hpy : p y = false := by
        cases hpy : p y
        · rfl
        · exact absurd (himp y hpy) (by simp [hqy])
      rw [List.find?_cons_of_neg _ (by simp [hpy])]
      exact ih hq hp

theorem mem_ordInsert {α : Type _} {le : α → α → Bool} {x a : α} :
    ∀ {l : List α}, a ∈ ordInsert le x l ↔ a = x ∨ a ∈ l := by
  intro l
  induction l with
  | nil => simp [ordInsert]
  | cons y ys ih =>
    by_cases h : le x y = true
    · simp only [ordInsert, if_pos h]
      simp [List.mem_cons]
    · simp only [ordInsert, if_neg h]
      simp [List.mem_cons, ih]
      tauto

theorem mem_stableSort {α : Type _} {le : α → α → Bool} {a : α} :
    ∀ {l : List α}, a ∈ stableSort le l ↔ a ∈ l := by
  intro l
  induction l with
  | nil => simp [stableSort]
  | cons x xs ih => simp [stableSort, mem_ordInsert, ih]

theorem pairwise_ordInsert {α : Type _} {le : α → α → Bool}
    (htot : ∀ a b, (le a b || le b a) = true)
    (htrans : ∀ a b c, le a b = true → le b c = true → le a c = true)
    (x : α) :
    ∀ {l : List α}, l.Pairwise (fun a b => le a b = true) →
      (ordInsert le x l).Pairwise (fun a b => le a b = true) := by
  intro l
  induction l with
  | nil => intro _; simp [ordInsert]
  | cons y ys ih =>
    intro hl
    rw [List.pairwise_cons] at hl
    obtain ⟨hy, hys⟩ := hl
    by_cases h : le x y = true
    · rw [ordInsert, if_pos h, List.pairwise_cons]
      constructor
      · intro z hz
        rcases List.mem_cons.mp hz with rfl | hz2
        · exact h
        · exact htrans x y z h (hy z hz2)
      · rw [List.pairwise_cons]
        exact ⟨hy, hys⟩
    · rw [ordInsert, if_neg h, List.pairwise_cons]
      refine ⟨?_, ih hys⟩
      intro z hz
      rcases mem_ordInsert.mp hz with hzx | hz2
      · rw [hzx]
        have hor := htot x y
        cases hxy : le x y
        · simpa [hxy] using hor
        · exact absurd hxy h
      · exact hy z hz2

theorem sorted_stableSort {α : Type _} {le : α → α → Bool}
    (htot : ∀ a b, (le a b || le b a) = true)
    (htrans : ∀ a b c, le a b = true → le b c = true → le a c = true) :
    ∀ (l : List α), (stableSort le l).Pairwise (fun a b => le a b = true) := by
  intro l
  induction l with
  | nil => simp [stableSort]
  | cons x xs ih => exact pairwise_ordInsert htot htrans x ih

theorem find?_ordInsert_of_neg {α : Type _} {le : α → α → Bool} {p : α → Bool}
    {x : α} (hx : p x = false) :
    ∀ (l : List α), (ordInsert le x l).find? p = l.find? p := by
  intro l
  induction l with
  | nil => simp [ordInsert, List.find?, hx]
  | cons y ys ih =>
    by_cases h : le x y = true
    · rw [ordInsert, if_pos h, List.find?_cons_of_neg _ (by simp [hx])]
    · rw [ordInsert, if_neg h]
      cases hy : p y with
      | true => rw [List.find?_cons_of_pos _ hy, List.find?_cons_of_pos _ hy]
      | false =>
        rw [List.find?_cons_of_neg _ (by simp [hy]),
          List.find?_cons_of_neg _ (by simp [hy])]
        exact ih

theorem find?_ordInsert_of_pos {α : Type _} {le : α → α → Bool} {p : α → Bool}
    {x : α}
    (htrans : ∀ a b c, le a b = true → le b c = true → le a c = true)
    (hx : p x = true) :
    ∀ (l : List α), l.Pairwise (fun a b => le a b = true) →
      (ordInsert le x l).find? p =
        (match l.find? p with
         | none => some x
         | some b => if le x b then some x else some b) := by
  intro l
  induction l with
  | nil =>
    intro _
    simp [ordInsert, List.find?, hx]
  | cons y ys ih =>
    intro hpair
    rw [List.pairwise_cons] at hpair
    obtain ⟨hy, hys⟩ := hpair
    by_cases h : le x y = true
    · rw [ordInsert, if_pos h, List.find?_cons_of_pos _ hx]
      cases hfy : (y :: ys).find? p with
      | none => rfl
      | some b =>
        have hb : b ∈ y :: ys := List.mem_of_find?_eq_some hfy
        have hxb : le x b = true := by
          rcases List.mem_cons.mp hb with rfl | hb2
          · exact h
          · exact htrans x y b h (hy b hb2)
        simp [hxb]
    · rw [ordInsert, if_neg h]
      cases hpy : p y with
      | true =>
        rw [List.find?_cons_of_pos _ hpy, List.find?_cons_of_pos _ hpy]
        have hxy : le x y = false := by
          cases hq : le x y
          · rfl
          · exact absurd hq h
        simp [hxy]
      | false =>
        rw [List.find?_cons_of_neg _ (by simp [hpy]),
          List.find?_cons_of_neg _ (by simp [hpy])]
        exact ih hys

/- ===== Code-point order lemmas ===== -/

theorem chLt_irrefl : ∀ l : List Char, chLt l l = false := by
  intro l
  induction l with
  | nil => rfl
  | cons c cs ih => simp [chLt, ih]

theorem chLt_trans :
    ∀ a b c : List Char, chLt a b = true → chLt b c = true → chLt a c = true := by
  intro a
  induction a with
  | nil =>
    intro b c hab hbc
    cases b with
    | nil => simp [chLt] at hab
    | cons y ys =>
      cases c with
      | nil => simp [chLt] at hbc
      | cons z zs => rfl
  | cons x xs ih =>
    intro b c hab hbc
    cases b with
    | nil => simp [chLt] at hab
    | cons y ys =>
      cases c with
      | nil => simp [chLt] at hbc
      | cons z zs =>
        simp only [chLt] at hab hbc ⊢
        by_cases h1 : x.toNat < y.toNat
        · by_cases h2 : y.toNat < z.toNat
          · simp [show x.toNat < z.toNat by omega]
          · by_cases h4 : z.toNat < y.toNat
            · simp [h2, h4] at hbc
            · simp [show x.toNat < z.toNat by omega]
        · by_cases h3 : y.toNat < x.toNat
          · simp [h1, h3] at hab
          · simp [h1, h3] at hab
            by_cases h2 : y.toNat < z.toNat
            · simp [show x.toNat < z.toNat by omega]
            · by_cases h4 : z.toNat < y.toNat
              · simp [h2, h4] at hbc
              · simp [h2, h4] at hbc
                simp [show ¬ x.toNat < z.toNat by omega,
                  show ¬ z.toNat < x.toNat by omega]
                exact ih ys zs hab hbc

theorem chLt_asymm {a b : List Char} (h : chLt a b = true) : chLt b a = false := by
  cases hba : chLt b a
  · rfl
  · have := chLt_trans a b a h hba
    rw [chLt_irrefl] at this
    exact this.symm

theorem chLt_connex :
    ∀ a b : List Char, chLt a b = false → chLt b a = false → a = b := by
  intro a
  induction a with
  | nil =>
    intro b h1 _
    cases b with
    | nil => rfl
    | cons y ys => simp [chLt] at h1
  | cons x xs ih =>
    intro b h1 h2
    cases b with
    | nil => simp [chLt] at h2
    | cons y ys =>
      simp only [chLt] at h1 h2
      by_cases hxy : x.toNat < y.toNat
      · simp [hxy] at h1
      · by_cases hyx : y.toNat < x.toNat
        · simp [hyx, hxy] at h2
        · have hx : x = y :=
            Char.ext (UInt32.ext (show x.toNat = y.toNat by omega))
          subst hx
          simp [hxy] at h1 h2
          rw [ih ys h1 h2]

theorem chLt_negtrans {a b c : List Char} (h1 : chLt a b = false)
    (h2 : chLt b c = false) : chLt a c = false := by
  cases h3 : chLt a c
  · rfl
  · cases h4 : chLt b a with
    | true =>
      have := chLt_trans b a c h4 h3
      rw [this] at h2
      exact h2
    | false =>
      have hab := chLt_connex a b h1 h4
      subst hab
      rw [h3] at h2
      exact h2

theorem strEq_of_data {s t : String} (h : s.data = t.data) : s = t := by
  cases s
  cases t
  exact congrArg String.mk h

theorem strLt_cases (x y : String) :
    strLt x y = true ∨ strLt y x = true ∨ x = y := by
  cases h1 : chLt x.data y.data
  · cases h2 : chLt y.data x.data
    · exact Or.inr (Or.inr (strEq_of_data (chLt_connex x.data y.data h1 h2)))
    · exact Or.inr (Or.inl h2)
  · exact Or.inl h1

theorem strLt_trans {x y z : String} (h1 : strLt x y = true)
    (h2 : strLt y z = true) : strLt x z = true :=
  chLt_trans x.data y.data z.data h1 h2

theorem strLt_asymm {x y : String} (h : strLt x y = true) : strLt y x = false :=
  chLt_asymm h

theorem strLt_irrefl (x : String) : strLt x x = false := chLt_irrefl x.data

/- ===== Date-order lemmas ===== -/

theorem dateKeyLe_refl : ∀ d, dateKeyLe d d = true := by
  intro d
  cases d <;> simp [dateKeyLe]

theorem dateKeyLe_total :
    ∀ a b, (dateKeyLe a b || dateKeyLe b a) = true := by
  intro a b
  cases a <;> cases b <;> simp [dateKeyLe] <;> omega

theorem dateKeyLe_trans :
    ∀ a b c, dateKeyLe a b = true → dateKeyLe b c = true →
      dateKeyLe a c = true := by
  intro a b c
  cases a <;> cases b <;> cases c <;> simp [dateKeyLe] <;> omega

/- ===== Merge-comparator lemmas ===== -/

theorem lexWrap_total {α : Type _} (v : α → String) (rest : α → α → Bool)
    (hrt : ∀ a b, (rest a b || rest b a) = true) (a b : α) :
    ((if strLt (v a) (v b) then true
      else if strLt (v b) (v a) then false else rest a b) ||
     (if strLt (v b) (v a) then true
      else if strLt (v a) (v b) then false else rest b a)) = true := by
  rcases strLt_cases (v a) (v b) with h1 | h1 | h1
  · simp [h1]
  · simp [h1]
  · rw [h1]
    simp [strLt_irrefl]
    simpa using hrt a b

theorem lexWrap_trans {α : Type _} (v : α → String) (rest : α → α → Bool)
    (hrt : ∀ a b c, rest a b = true → rest b c = true → rest a c = true)
    (a b c : α)
    (hab : (if strLt (v a) (v b) then true
            else if strLt (v b) (v a) then false else rest a b) = true)
    (hbc : (if strLt (v b) (v c) then true
            else if strLt (v c) (v b) then false else rest b c) = true) :
    (if strLt (v a) (v c) then true
     else if strLt (v c) (v a) then false else rest a c) = true := by
  rcases strLt_cases (v a) (v b) with h1 | h1 | h1
  · rcases strLt_cases (v b) (v c) with h2 | h2 | h2
    · simp [strLt_trans h1 h2]
    · rw [if_neg (by simp [strLt_asymm h2]), if_pos (by simp [h2])] at hbc
      exact absurd hbc (by simp)
    · rw [← h2]
      simp [h1]
  · rw [if_neg (by simp [strLt_asymm h1]), if_pos (by simp [h1])] at hab
    exact absurd hab (by simp)
  · rw [h1]
    rw [h1] at hab
    rw [if_neg (by simp [strLt_irrefl]), if_neg (by simp [strLt_irrefl])] at hab
    rcases strLt_cases (v b) (v c) with h2 | h2 | h2
    · simp [h2]
    · rw [if_neg (by simp [strLt_asymm h2]), if_pos (by simp [h2])] at hbc
      exact absurd hbc (by simp)
    · rw [← h2]
      rw [← h2] at hbc
      rw [if_neg (by simp [strLt_irrefl]), if_neg (by simp [strLt_irrefl])] at hbc
      rw [if_neg (by simp [strLt_irrefl]), if_neg (by simp [strLt_irrefl])]
      exact hrt a b c hab hbc

theorem batchLe_eq (a b : CatalogRow) :
    batchLe a b =
      (if strLt a.item_number b.item_number then true
       else if strLt b.item_number a.item_number then false
       else dateKeyLe a.price_date b.price_date) := rfl

theorem mergeLe_eq (a b : CatalogRow) :
    mergeLe a b =
      (if strLt a.vendor b.vendor then true
       else if strLt b.vendor a.vendor then false else batchLe a b) := rfl

theorem batchLe_total : ∀ a b, (batchLe a b || batchLe b a) = true := by
  intro a b
  rw [batchLe_eq, batchLe_eq]
  exact lexWrap_total (fun r => r.item_number)
    (fun r s => dateKeyLe r.price_date s.price_date)
    (fun r s => dateKeyLe_total r.price_date s.price_date) a b

theorem batchLe_trans :
    ∀ a b c, batchLe a b = true → batchLe b c = true → batchLe a c = true := by
  intro a b c hab hbc
  rw [batchLe_eq] at hab hbc ⊢
  exact lexWrap_trans (fun r => r.item_number)
    (fun r s => dateKeyLe r.price_date s.price_date)
    (fun r s t => dateKeyLe_trans r.price_date s.price_date t.price_date)
    a b c hab hbc

theorem mergeLe_total : ∀ a b, (mergeLe a b || mergeLe b a) = true := by
  intro a b
  rw [mergeLe_eq, mergeLe_eq]
  exact lexWrap_total (fun r => r.vendor) batchLe batchLe_total a b

theorem mergeLe_trans :
    ∀ a b c, mergeLe a b = true → mergeLe b c = true → mergeLe a c = true := by
  intro a b c hab hbc
  rw [mergeLe_eq] at hab hbc ⊢
  exact lexWrap_trans (fun r => r.vendor) batchLe batchLe_trans a b c hab hbc

theorem rowKey_fields {a b : CatalogRow} (h : rowKey a = rowKey b) :
    a.vendor = b.vendor ∧ a.item_number = b.item_number := by
  rw [rowKey, rowKey, Prod.mk.injEq] at h
  exact h

theorem mergeLe_keyEq :
    ∀ a b : CatalogRow, rowKey a = rowKey b →
      mergeLe a b = dateKeyLe a.price_date b.price_date := by
  intro a b h
  obtain ⟨hv, hi⟩ := rowKey_fields h
  rw [mergeLe_eq, batchLe_eq, hv, hi]
  simp [strLt_irrefl]

theorem mergeLe_antisymm_key (a b : CatalogRow)
    (h1 : mergeLe a b = true) (h2 : mergeLe b a = true) :
    rowKey a = rowKey b := by
  rw [mergeLe_eq, batchLe_eq] at h1 h2
  rcases strLt_cases a.vendor b.vendor with hv | hv | hv
  · rw [if_neg (by simp [strLt_asymm hv]), if_pos (by simp [hv])] at h2
    exact absurd h2 (by simp)
  · rw [if_neg (by simp [strLt_asymm hv]), if_pos (by simp [hv])] at h1
    exact absurd h1 (by simp)
  · rw [hv] at h1
    rw [if_neg (by simp [strLt_irrefl]), if_neg (by simp [strLt_irrefl])] at h1
    rw [hv] at h2
    rw [if_neg (by simp [strLt_irrefl]), if_neg (by simp [strLt_irrefl])] at h2
    rcases strLt_cases a.item_number b.item_number with hi | hi | hi
    · rw [if_neg (by simp [strLt_asymm hi]), if_pos (by simp [hi])] at h2
      exact absurd h2 (by simp)
    · rw [if_neg (by simp [strLt_asymm hi]), if_pos (by simp [hi])] at h1
      exact absurd h1 (by simp)
    · rw [rowKey, rowKey, hv, hi]


/- ===== Dedup and merge lemmas ===== -/

theorem keyFind_dropDupAux (k : String × String) :
    ∀ (seen : List (String × String)) (l : List CatalogRow),
      keyFind k (dropDupAux seen l) =
        if k ∈ seen then none else keyFind k l := by
  intro seen l
  induction l generalizing seen with
  | nil => simp [dropDupAux, keyFind, List.find?]
  | cons r rs ih =>
    by_cases hrk : rowKey r = k
    · have hfk : keyFind k (r :: rs) = some r := by
        rw [keyFind, List.find?_cons_of_pos _ (by simp [hrk])]
      by_cases hr : rowKey r ∈ seen
      · have hk : k ∈ seen := hrk ▸ hr
        rw [dropDupAux, if_pos hr, ih seen]
        simp [hk]
      · have hk : k ∉ seen := fun h2 => hr (by rw [hrk]; exact h2)
        rw [dropDupAux, if_neg hr, keyFind,
          List.find?_cons_of_pos _ (by simp [hrk]), if_neg hk, hfk]
    · have hfk : keyFind k (r :: rs) = keyFind k rs := by
        rw [keyFind, List.find?_cons_of_neg _ (by simp [hrk])]
        rfl
      by_cases hr : rowKey r ∈ seen
      · rw [dropDupAux, if_pos hr, ih seen, hfk]
      · have hnot : k ∉ rowKey r :: seen → True := fun _ => trivial
        rw [dropDupAux, if_neg hr, keyFind,
          List.find?_cons_of_neg _ (by simp [hrk]), ← keyFind,
          ih (rowKey r :: seen), hfk]
        by_cases hk : k ∈ seen
        · rw [if_pos hk, if_pos (List.mem_cons_of_mem _ hk)]
        · have hmem : k ∉ rowKey r :: seen := by
            intro h
            rcases List.mem_cons.mp h with he | h2
            · exact hrk he.symm
            · exact hk h2
          rw [if_neg hk, if_neg hmem]

theorem dropDupAux_sublist :
    ∀ (seen : List (String × String)) (l : List CatalogRow),
      (dropDupAux seen l).Sublist l := by
  intro seen l
  induction l generalizing seen with
  | nil => simp [dropDupAux]
  | cons r rs ih =>
    by_cases hr : rowKey r ∈ seen
    · rw [dropDupAux, if_pos hr]
      exact (ih seen).cons r
    · rw [dropDupAux, if_neg hr]
      exact (ih (rowKey r :: seen)).cons₂ r

theorem mem_dropDupAux {r : CatalogRow} {seen : List (String × String)}
    {l : List CatalogRow} (h : r ∈ dropDupAux seen l) : r ∈ l :=
  (dropDupAux_sublist seen l).subset h

theorem pairwiseKeys_dropDupAux :
    ∀ (seen : List (String × String)) (l : List CatalogRow),
      (dropDupAux seen l).Pairwise (fun a b => rowKey a ≠ rowKey b) ∧
      ∀ r ∈ dropDupAux seen l, rowKey r ∉ seen := by
  intro seen l
  induction l generalizing seen with
  | nil => simp [dropDupAux]
  | cons r rs ih =>
    by_cases hr : rowKey r ∈ seen
    · rw [dropDupAux, if_pos hr]
      exact ih seen
    · rw [dropDupAux, if_neg hr]
      obtain ⟨hp, hmem⟩ := ih (rowKey r :: seen)
      refine ⟨List.pairwise_cons.mpr ⟨?_, hp⟩, ?_⟩
      · intro s hs he
        exact hmem s hs (by rw [← he]; exact List.mem_cons_self _ _)
      · intro s hs
        rcases List.mem_cons.mp hs with rfl | hs2
        · exact hr
        · exact fun hseen => hmem s hs2 (List.mem_cons_of_mem _ hseen)

theorem keyFind_eq_none_iff (k : String × String) (l : List CatalogRow) :
    keyFind k l = none ↔ keyGroup k l = [] := by
  rw [keyFind, List.find?_eq_none, keyGroup, List.filter_eq_nil_iff]

theorem keyGroup_cons_pos {k : String × String} {x : CatalogRow}
    (hx : rowKey x = k) (l : List CatalogRow) :
    keyGroup k (x :: l) = x :: keyGroup k l := by
  simp [keyGroup, List.filter_cons, hx]

theorem keyGroup_cons_neg {k : String × String} {x : CatalogRow}
    (hx : rowKey x ≠ k) (l : List CatalogRow) :
    keyGroup k (x :: l) = keyGroup k l := by
  simp [keyGroup, List.filter_cons, hx]

theorem keyFind_stableSort (le : CatalogRow → CatalogRow → Bool)
    (htot : ∀ a b, (le a b || le b a) = true)
    (htrans : ∀ a b c, le a b = true → le b c = true → le a c = true)
    (hkey : ∀ a b, rowKey a = rowKey b →
      le a b = dateKeyLe a.price_date b.price_date)
    (k : String × String) :
    ∀ m : List CatalogRow, keyFind k (stableSort le m) = bestRow k m := by
  intro m
  induction m with
  | nil => rfl
  | cons x m ih =>
    rw [stableSort]
    by_cases hxk : rowKey x = k
    · rw [keyFind,
        find?_ordInsert_of_pos htrans (by simp [hxk]) _
          (sorted_stableSort htot htrans m),
        ← keyFind, ih]
      cases hb : bestRow k m with
      | none =>
        have hge : keyGroup k m = [] := by
          have hkf : keyFind k (stableSort le m) = none := by rw [ih, hb]
          rw [keyFind, List.find?_eq_none] at hkf
          rw [keyGroup, List.filter_eq_nil_iff]
          intro a ha
          exact hkf a (mem_stableSort.mpr ha)
        have hgx : keyGroup k (x :: m) = [x] := by
          rw [keyGroup_cons_pos hxk, hge]
        rw [bestRow, hgx]
        rw [List.find?_cons_of_pos _ (by simp [dateKeyLe_refl])]
      | some b =>
        have hbmem : b ∈ keyGroup k m := by
          rw [bestRow] at hb
          exact List.mem_of_find?_eq_some hb
        have hbP : (keyGroup k m).all
            (fun s => dateKeyLe b.price_date s.price_date) = true := by
          rw [bestRow] at hb
          exact List.find?_some
            (p := fun (r : CatalogRow) => (keyGroup k m).all
              (fun s => dateKeyLe r.price_date s.price_date)) hb
        have hbk : rowKey b = k := by
          rw [keyGroup, List.mem_filter] at hbmem
          simpa using hbmem.2
        have hlexb : le x b = dateKeyLe x.price_date b.price_date :=
          hkey x b (by rw [hxk, hbk])
        have hgx : keyGroup k (x :: m) = x :: keyGroup k m :=
          keyGroup_cons_pos hxk m
        by_cases hxb : dateKeyLe x.price_date b.price_date = true
        · have hallx : (keyGroup k m).all
              (fun s => dateKeyLe x.price_date s.price_date) = true := by
            rw [List.all_eq_true] at hbP ⊢
            intro s hs
            exact dateKeyLe_trans _ _ _ hxb (hbP s hs)
          have hbest : bestRow k (x :: m) = some x := by
            rw [bestRow, hgx]
            apply List.find?_cons_of_pos
            simp [dateKeyLe_refl, hallx, hgx]
          rw [hbest]
          simp [hlexb, hxb]
        · have hxbf : dateKeyLe x.price_date b.price_date = false := by
            cases hq : dateKeyLe x.price_date b.price_date
            · rfl
            · exact absurd hq hxb
          have hbx : dateKeyLe b.price_date x.price_date = true := by
            have hor := dateKeyLe_total x.price_date b.price_date
            cases hq : dateKeyLe b.price_date x.price_date
            · rw [hxbf, hq] at hor
              exact absurd hor (by simp)
            · rfl
          have hbest : bestRow k (x :: m) = some b := by
            rw [bestRow, hgx]
            rw [List.find?_cons_of_neg]
            · have hq : (keyGroup k m).find?
                  (fun r => (keyGroup k m).all
                    (fun s => dateKeyLe r.price_date s.price_date)) = some b := hb
              apply find?_stronger (q := fun r => (keyGroup k m).all
                  (fun s => dateKeyLe r.price_date s.price_date))
              · intro z hz
                simp only [List.all_cons, Bool.and_eq_true] at hz
                exact hz.2
              · exact hq
              · rw [List.all_cons]
                simp [hbx, hbP]
            · rw [List.all_cons]
              have : (keyGroup k m).all
                  (fun s => dateKeyLe x.price_date s.price_date) = false := by
                rw [Bool.eq_false_iff]
                intro hall
                rw [List.all_eq_true] at hall
                exact absurd (hall b hbmem) (by simp [hxbf])
              simp [this]
          rw [hbest]
          simp [hlexb, hxbf]
    · rw [keyFind, find?_ordInsert_of_neg (by simp [hxk]) _, ← keyFind, ih]
      rw [bestRow, bestRow, keyGroup_cons_neg hxk]

theorem keyFind_mergeSave (existing batch : List CatalogRow)
    (k : String × String) :
    keyFind k (mergeSave existing batch) =
      bestRow k (existing ++ prepBatch batch) := by
  rw [mergeSave, dropDupKey, keyFind_dropDupAux k [] _,
    if_neg (List.not_mem_nil k)]
  exact keyFind_stableSort mergeLe mergeLe_total mergeLe_trans mergeLe_keyEq k _

theorem mergeSave_pairwiseKeys (existing batch : List CatalogRow) :
    (mergeSave existing batch).Pairwise (fun a b => rowKey a ≠ rowKey b) :=
  (pairwiseKeys_dropDupAux [] _).1

theorem mergeSave_sorted (existing batch : List CatalogRow) :
    (mergeSave existing batch).Pairwise (fun a b => mergeLe a b = true) :=
  List.Pairwise.sublist (dropDupAux_sublist [] _)
    (sorted_stableSort mergeLe_total mergeLe_trans _)

theorem mem_prepBatch {r : CatalogRow} {batch : List CatalogRow}
    (h : r ∈ prepBatch batch) : r ∈ batch := by
  rw [prepBatch, dropDupKey] at h
  have h2 := mem_dropDupAux h
  have h3 := mem_stableSort.mp h2
  exact (List.mem_filter.mp h3).1

theorem truncDate_idem (d : Option Int) :
    truncDate (truncDate d) = truncDate d := by
  cases d with
  | none => rfl
  | some t =>
    simp only [truncDate, Option.some.injEq]
    exact congrArg (fun z => z * 1440)
      (Int.mul_ediv_cancel (Int.ediv t 1440) (by norm_num))

theorem persistRow_idem (r : CatalogRow) :
    persistRow (persistRow r) = persistRow r := by
  simp [persistRow, truncDate_idem]

theorem dateKeyLe_truncDate {x y : Option Int} (h : dateKeyLe x y = true) :
    dateKeyLe (truncDate x) (truncDate y) = true := by
  cases x with
  | none =>
    cases y with
    | none => rfl
    | some b => simp [dateKeyLe] at h
  | some a =>
    cases y with
    | none => rfl
    | some b =>
      simp only [dateKeyLe, truncDate, decide_eq_true_eq] at h ⊢
      have h2 : Int.ediv b 1440 ≤ Int.ediv a 1440 :=
        Int.ediv_le_ediv (by norm_num) h
      exact Int.mul_le_mul_of_nonneg_right h2 (by norm_num)

theorem map_persistRow_id {l : List CatalogRow}
    (h : ∀ r ∈ l, truncDate r.price_date = r.price_date) :
    l.map persistRow = l := by
  induction l with
  | nil => rfl
  | cons x xs ih =>
    rw [List.map_cons, ih (fun r hr => h r (List.mem_cons_of_mem _ hr))]
    have hx := h x (List.mem_cons_self _ _)
    simp [persistRow, hx]

theorem keyFind_map_persist (k : String × String) :
    ∀ l : List CatalogRow,
      keyFind k (l.map persistRow) = (keyFind k l).map persistRow := by
  intro l
  induction l with
  | nil => rfl
  | cons x xs ih =>
    by_cases hx : rowKey x = k
    · rw [List.map_cons, keyFind,
        List.find?_cons_of_pos _ (by simp [rowKey, persistRow, ← hx]), keyFind,
        List.find?_cons_of_pos _ (by simp [hx])]
      rfl
    · rw [List.map_cons, keyFind,
        List.find?_cons_of_neg _ (by simp [rowKey, persistRow]; exact hx),
        keyFind, List.find?_cons_of_neg _ (by simp [hx])]
      exact ih

theorem keyGroup_map_persist (k : String × String) :
    ∀ l : List CatalogRow,
      keyGroup k (l.map persistRow) = (keyGroup k l).map persistRow := by
  intro l
  induction l with
  | nil => rfl
  | cons x xs ih =>
    by_cases hx : rowKey x = k
    · rw [List.map_cons,
        keyGroup_cons_pos (show rowKey (persistRow x) = k from hx)
          (xs.map persistRow),
        keyGroup_cons_pos hx xs, List.map_cons, ih]
    · rw [List.map_cons,
        keyGroup_cons_neg (show rowKey (persistRow x) ≠ k from hx)
          (xs.map persistRow),
        keyGroup_cons_neg hx xs, ih]

theorem pairwise_keys_map_persist {l : List CatalogRow}
    (h : l.Pairwise (fun a b => rowKey a ≠ rowKey b)) :
    (l.map persistRow).Pairwise (fun a b => rowKey a ≠ rowKey b) := by
  rw [List.pairwise_map]
  exact h

theorem mergeLe_persist {a b : CatalogRow} (hne : rowKey a ≠ rowKey b)
    (hab : mergeLe a b = true) :
    mergeLe (persistRow a) (persistRow b) = true := by
  have hva : (persistRow a).vendor = a.vendor := rfl
  have hvb : (persistRow b).vendor = b.vendor := rfl
  have hia : (persistRow a).item_number = a.item_number := rfl
  have hib : (persistRow b).item_number = b.item_number := rfl
  rw [mergeLe_eq, batchLe_eq] at hab
  rw [mergeLe_eq, batchLe_eq, hva, hvb, hia, hib]
  rcases strLt_cases a.vendor b.vendor with hv | hv | hv
  · simp [hv]
  · rw [if_neg (by simp [strLt_asymm hv]), if_pos (by simp [hv])] at hab
    exact absurd hab (by simp)
  · rw [hv] at hab ⊢
    rw [if_neg (by simp [strLt_irrefl]), if_neg (by simp [strLt_irrefl])] at hab ⊢
    rcases strLt_cases a.item_number b.item_number with hi | hi | hi
    · simp [hi]
    · rw [if_neg (by simp [strLt_asymm hi]), if_pos (by simp [hi])] at hab
      exact absurd hab (by simp)
    · exact absurd (by rw [rowKey, rowKey, hv, hi]) hne

theorem pairwise_mergeLe_map_persist {l : List CatalogRow}
    (hd : l.Pairwise (fun a b => rowKey a ≠ rowKey b))
    (hs : l.Pairwise (fun a b => mergeLe a b = true)) :
    (l.map persistRow).Pairwise (fun a b => mergeLe a b = true) := by
  rw [List.pairwise_map]
  exact (hd.and hs).imp (fun hab => mergeLe_persist hab.1 hab.2)

theorem keyGroup_of_distinct (k : String × String) :
    ∀ (l : List CatalogRow), l.Pairwise (fun a b => rowKey a ≠ rowKey b) →
      ∀ r, keyFind k l = some r → keyGroup k l = [r] := by
  intro l
  induction l with
  | nil => intro _ r h; simp [keyFind, List.find?] at h
  | cons x xs ih =>
    intro hp r hf
    rw [List.pairwise_cons] at hp
    obtain ⟨hx, hxs⟩ := hp
    by_cases hxk : rowKey x = k
    · rw [keyFind, List.find?_cons_of_pos _ (by simp [hxk])] at hf
      have hxr : x = r := by injection hf
      subst hxr
      have hnil : keyGroup k xs = [] := by
        rw [keyGroup, List.filter_eq_nil_iff]
        intro a ha
        simp only [decide_eq_true_eq]
        intro he
        exact hx a ha (by rw [hxk, he])
      rw [keyGroup_cons_pos hxk, hnil]
    · rw [keyFind, List.find?_cons_of_neg _ (by simp [hxk])] at hf
      rw [keyGroup_cons_neg hxk]
      exact ih hxs r hf

theorem bestRow_eq_none_iff (k : String × String) (m : List CatalogRow) :
    bestRow k m = none ↔ keyGroup k m = [] := by
  rw [← keyFind_stableSort mergeLe mergeLe_total mergeLe_trans mergeLe_keyEq k m]
  rw [keyFind, List.find?_eq_none]
  constructor
  · intro h
    rw [keyGroup, List.filter_eq_nil_iff]
    intro a ha
    exact h a (mem_stableSort.mpr ha)
  · intro h a ha
    rw [keyGroup, List.filter_eq_nil_iff] at h
    exact h a (mem_stableSort.mp ha)

theorem keyFind_ext :
    ∀ (l1 l2 : List CatalogRow),
      l1.Pairwise (fun a b => mergeLe a b = true) →
      l2.Pairwise (fun a b => mergeLe a b = true) →
      l1.Pairwise (fun a b => rowKey a ≠ rowKey b) →
      l2.Pairwise (fun a b => rowKey a ≠ rowKey b) →
      (∀ k, keyFind k l1 = keyFind k l2) → l1 = l2 := by
  intro l1
  induction l1 with
  | nil =>
    intro l2 _ _ _ _ h
    cases l2 with
    | nil => rfl
    | cons y ys =>
      have hy := h (rowKey y)
      rw [keyFind, keyFind, List.find?_cons_of_pos _ (by simp)] at hy
      exact absurd hy (by simp [List.find?])
  | cons x xs ih =>
    intro l2 s1 s2 d1 d2 h
    cases l2 with
    | nil =>
      have hx := h (rowKey x)
      rw [keyFind, List.find?_cons_of_pos _ (by simp), keyFind] at hx
      exact absurd hx (by simp [List.find?])
    | cons y ys =>
      have hfx : keyFind (rowKey x) (x :: xs) = some x := by
        rw [keyFind, List.find?_cons_of_pos _ (by simp)]
      have hfy : keyFind (rowKey y) (y :: ys) = some y := by
        rw [keyFind, List.find?_cons_of_pos _ (by simp)]
      have hxy : x = y := by
        by_cases hk : rowKey x = rowKey y
        · have h1 := h (rowKey x)
          rw [hfx, keyFind, List.find?_cons_of_pos _ (by simp [hk])] at h1
          exact Option.some.inj h1
        · have h1 := h (rowKey x)
          rw [hfx, keyFind, List.find?_cons_of_neg _
            (by simp only [decide_eq_true_eq]; exact fun he => hk he.symm)] at h1
          have hxys : x ∈ ys := List.mem_of_find?_eq_some h1.symm
          have h2 := h (rowKey y)
          rw [hfy, keyFind,
            List.find?_cons_of_neg _ (by simp [hk])] at h2
          have hyxs : y ∈ xs := List.mem_of_find?_eq_some h2
          have hxy1 : mergeLe x y = true := (List.pairwise_cons.mp s1).1 y hyxs
          have hxy2 : mergeLe y x = true := (List.pairwise_cons.mp s2).1 x hxys
          exact absurd (mergeLe_antisymm_key x y hxy1 hxy2) hk
      subst hxy
      congr 1
      refine ih ys (List.pairwise_cons.mp s1).2 (List.pairwise_cons.mp s2).2
        (List.pairwise_cons.mp d1).2 (List.pairwise_cons.mp d2).2 ?_
      intro k
      by_cases hk : rowKey x = k
      · have hn1 : keyFind k xs = none := by
          rw [keyFind, List.find?_eq_none]
          intro a ha
          simp only [decide_eq_true_eq]
          intro he
          exact (List.pairwise_cons.mp d1).1 a ha (by rw [hk, he])
        have hn2 : keyFind k ys = none := by
          rw [keyFind, List.find?_eq_none]
          intro a ha
          simp only [decide_eq_true_eq]
          intro he
          exact (List.pairwise_cons.mp d2).1 a ha (by rw [hk, he])
        rw [hn1, hn2]
      · have h1 := h k
        rw [keyFind, List.find?_cons_of_neg _ (by simp [hk]), keyFind,
          List.find?_cons_of_neg _ (by simp [hk])] at h1
        exact h1

/- ===== Catalog merge claims (C2, C6) ===== -/

/-- C2 counterexample: two incoming rows with the same key and the same
price date.  The claim says the later upload row (cost 1200) wins the tie;
pandas performs a stable multi-column sort and `drop_duplicates`
keeps the first row, so the earlier upload row (cost 1000) wins. -/
theorem c2_counterexample :
    mergeSave []
        [⟨"VendorA", "123", some 0, 1000⟩, ⟨"VendorA", "123", some 0, 1200⟩] =
      [⟨"VendorA", "123", some 0, 1000⟩] ∧
    mergeSave []
        [⟨"VendorA", "123", some 0, 1000⟩, ⟨"VendorA", "123", some 0, 1200⟩] ≠
      [⟨"VendorA", "123", some 0, 1200⟩] := by
  decide

/-- C2 amended: the merged catalog of the save step has at most one row per
natural key, and the row it keeps for key `k` is the FIRST row, in the
order existing-catalog-then-deduplicated-batch, whose price date is maximal
among the key-`k` rows — so the most recent price date wins, but a tie is
broken in favour of the earliest row (existing over incoming, earlier
upload row over later), not the most recent upload.  The claim's own
example (existing Jan 1 at 10.00, incoming Feb 1 at 12.00) yields exactly
one row with cost 12.00. -/
theorem c2_merge_latest_wins (existing batch : List CatalogRow) :
    (mergeSave existing batch).Pairwise (fun a b => rowKey a ≠ rowKey b) ∧
    (∀ k, keyFind k (mergeSave existing batch) =
      bestRow k (existing ++ prepBatch batch)) ∧
    mergeSave [⟨"VendorA", "123", some 0, 1000⟩]
        [⟨"VendorA", "123", some 44640, 1200⟩] =
      [⟨"VendorA", "123", some 44640, 1200⟩] :=
  ⟨mergeSave_pairwiseKeys existing batch,
   keyFind_mergeSave existing batch,
   by decide⟩

/-- C6 counterexample: a batch whose price date carries a time of day.
The first save truncates the stored date to midnight, so on the second
merge of the same batch the incoming 08:00 row now beats the stored row
(whose 10:00 timestamp was flattened to 00:00), and the saved table
changes. -/
theorem c6_counterexample :
    savedCatalog
        (savedCatalog [⟨"VendorA", "123", some 600, 1000⟩]
          [⟨"VendorA", "123", some 480, 1200⟩])
        [⟨"VendorA", "123", some 480, 1200⟩] ≠
      savedCatalog [⟨"VendorA", "123", some 600, 1000⟩]
        [⟨"VendorA", "123", some 480, 1200⟩] := by
  decide

/-- C6 amended: when every incoming price date is a pure date (no
time-of-day component — which is also the only form the store itself ever
persists), merging the same batch into the saved catalog a second time
reproduces the first save exactly. -/
theorem c6_merge_idempotent (existing batch : List CatalogRow)
    (hb : ∀ r ∈ batch, truncDate r.price_date = r.price_date) :
    savedCatalog (savedCatalog existing batch) batch =
      savedCatalog existing batch := by
  have hpb : ∀ r ∈ prepBatch batch, truncDate r.price_date = r.price_date :=
    fun r hr => hb r (mem_prepBatch hr)
  show (mergeSave ((mergeSave existing batch).map persistRow) batch).map
        persistRow =
      (mergeSave existing batch).map persistRow
  have hMd := mergeSave_pairwiseKeys existing batch
  have hMs := mergeSave_sorted existing batch
  have hM2d :=
    mergeSave_pairwiseKeys ((mergeSave existing batch).map persistRow) batch
  have hM2s :=
    mergeSave_sorted ((mergeSave existing batch).map persistRow) batch
  apply keyFind_ext
  · exact pairwise_mergeLe_map_persist hM2d hM2s
  · exact pairwise_mergeLe_map_persist hMd hMs
  · exact pairwise_keys_map_persist hM2d
  · exact pairwise_keys_map_persist hMd
  intro k
  rw [keyFind_map_persist, keyFind_map_persist, keyFind_mergeSave,
    keyFind_mergeSave]
  cases hbr : bestRow k (existing ++ prepBatch batch) with
  | none =>
    have hge : keyGroup k (existing ++ prepBatch batch) = [] :=
      (bestRow_eq_none_iff k _).mp hbr
    have hgC1 : keyGroup k ((mergeSave existing batch).map persistRow) = [] := by
      rw [keyGroup_map_persist]
      have hkf : keyFind k (mergeSave existing batch) = none := by
        rw [keyFind_mergeSave, hbr]
      rw [(keyFind_eq_none_iff k _).mp hkf]
      rfl
    have hgpb : keyGroup k (prepBatch batch) = [] := by
      rw [keyGroup, List.filter_eq_nil_iff] at hge ⊢
      intro a ha
      exact hge a (List.mem_append_right _ ha)
    have hgall : keyGroup k
        ((mergeSave existing batch).map persistRow ++ prepBatch batch) = [] := by
      rw [keyGroup, List.filter_append]
      rw [keyGroup] at hgC1 hgpb
      rw [hgC1, hgpb]
      rfl
    rw [(bestRow_eq_none_iff k _).mpr hgall]
  | some rstar =>
    have hbrm := hbr
    rw [bestRow] at hbrm
    have hall : (keyGroup k (existing ++ prepBatch batch)).all
        (fun s => dateKeyLe rstar.price_date s.price_date) = true :=
      List.find?_some (p := fun (r : CatalogRow) =>
        (keyGroup k (existing ++ prepBatch batch)).all
          (fun s => dateKeyLe r.price_date s.price_date)) hbrm
    have hkM : keyFind k (mergeSave existing batch) = some rstar := by
      rw [keyFind_mergeSave, hbr]
    have hgM : keyGroup k (mergeSave existing batch) = [rstar] :=
      keyGroup_of_distinct k _ hMd rstar hkM
    have hgC1 : keyGroup k ((mergeSave existing batch).map persistRow) =
        [persistRow rstar] := by
      rw [keyGroup_map_persist, hgM]
      rfl
    have hgroup : keyGroup k
        ((mergeSave existing batch).map persistRow ++ prepBatch batch) =
        persistRow rstar :: keyGroup k (prepBatch batch) := by
      rw [keyGroup, List.filter_append]
      rw [keyGroup] at hgC1
      rw [hgC1]
      rfl
    have hpred : (persistRow rstar :: keyGroup k (prepBatch batch)).all
        (fun s => dateKeyLe (persistRow rstar).price_date s.price_date) =
        true := by
      rw [List.all_cons]
      have h1 : dateKeyLe (persistRow rstar).price_date
          (persistRow rstar).price_date = true := dateKeyLe_refl _
      have h2 : (keyGroup k (prepBatch batch)).all
          (fun s => dateKeyLe (persistRow rstar).price_date s.price_date) =
          true := by
        rw [List.all_eq_true]
        intro s hs
        have hsm := hs
        rw [keyGroup, List.mem_filter] at hsm
        have hspb : s ∈ prepBatch batch := hsm.1
        have hs2 : s ∈ keyGroup k (existing ++ prepBatch batch) := by
          rw [keyGroup, List.mem_filter]
          exact ⟨List.mem_append_right _ hspb, hsm.2⟩
        have hd : dateKeyLe rstar.price_date s.price_date = true := by
          rw [List.all_eq_true] at hall
          exact hall s hs2
        have hmono := dateKeyLe_truncDate hd
        rw [hpb s hspb] at hmono
        exact hmono
      rw [h1, h2]
      rfl
    have hbest : bestRow k
        ((mergeSave existing batch).map persistRow ++ prepBatch batch) =
        some (persistRow rstar) := by
      rw [bestRow, hgroup]
      exact List.find?_cons_of_pos _ hpred
    rw [hbest]
    simp [persistRow_idem]

/-- Witness for C6 at a concrete catalog and date-only batch. -/
theorem c6_merge_idempotent_witness :
    (∀ r ∈ [(⟨"VendorA", "123", some 1440, 1200⟩ : CatalogRow)],
      truncDate r.price_date = r.price_date) ∧
    savedCatalog
        (savedCatalog [⟨"VendorA", "123", some 0, 1000⟩]
          [⟨"VendorA", "123", some 1440, 1200⟩])
        [⟨"VendorA", "123", some 1440, 1200⟩] =
      savedCatalog [⟨"VendorA", "123", some 0, 1000⟩]
        [⟨"VendorA", "123", some 1440, 1200⟩] :=
  ⟨by decide, c6_merge_idempotent _ _ (by decide)⟩

/- ===== Python max characterization (C8) ===== -/

theorem firstMax_step {α : Type _} {lt : α → α → Bool}
    (hirr : ∀ a, lt a a = false)
    (htrans : ∀ a b c, lt a b = true → lt b c = true → lt a c = true)
    (hneg : ∀ a b c, lt a b = false → lt b c = false → lt a c = false)
    (x y : α) (ys : List α) :
    firstMax lt (x :: y :: ys) = firstMax lt ((if lt x y then y else x) :: ys) := by
  by_cases hxy : lt x y = true
  · rw [if_pos hxy, firstMax, firstMax]
    rw [List.find?_cons_of_neg _ (by simp [List.all_cons, hxy])]
    apply find?_congr
    intro a ha
    simp only [List.all_cons]
    by_cases hay : lt a y = true
    · simp [hay]
    · have hay2 : lt a y = false := by
        cases hq : lt a y
        · rfl
        · exact absurd hq hay
      have hax : lt a x = false := by
        cases hq : lt a x
        · rfl
        · have h2 := htrans a x y hq hxy
          rw [h2] at hay2
          exact absurd hay2 (by simp)
      simp [hax, hay2]
  · have hxyf : lt x y = false := by
      cases hq : lt x y
      · rfl
      · exact absurd hq hxy
    rw [if_neg hxy, firstMax, firstMax]
    by_cases hys : ys.all (fun h => !lt x h) = true
    · have hpx : (x :: y :: ys).all (fun h => !lt x h) = true := by
        simp [List.all_cons, hirr, hxyf, hys]
      have hpx2 : (x :: ys).all (fun h => !lt x h) = true := by
        simp [List.all_cons, hirr, hys]
      rw [List.find?_cons_of_pos _ (by exact hpx),
        List.find?_cons_of_pos _ (by exact hpx2)]
    · have hysf : ys.all (fun h => !lt x h) = false := by
        cases hq : ys.all (fun h => !lt x h)
        · rfl
        · exact absurd hq hys
      obtain ⟨h0, hh0, hlt0⟩ : ∃ h0 ∈ ys, lt x h0 = true := by
        have hne : ¬ (∀ h ∈ ys, (!lt x h) = true) := by
          rw [← List.all_eq_true, hysf]
          simp
        push_neg at hne
        obtain ⟨h0, hh0, hfail⟩ := hne
        refine ⟨h0, hh0, ?_⟩
        cases hq : lt x h0
        · exact absurd (by simp [hq]) hfail
        · rfl
      have hyh0 : lt y h0 = true := by
        cases hq : lt y h0
        · have := hneg x y h0 hxyf hq
          rw [hlt0] at this
          exact absurd this (by simp)
        · rfl
      have hpxf : (x :: y :: ys).all (fun h => !lt x h) = false := by
        simp [List.all_cons, hysf]
      have hpx2f : (x :: ys).all (fun h => !lt x h) = false := by
        simp [List.all_cons, hysf]
      have hp1y : (x :: y :: ys).all (fun h => !lt y h) = false := by
        cases hq2 : (x :: y :: ys).all (fun h => !lt y h)
        · rfl
        · rw [List.all_eq_true] at hq2
          have := hq2 h0 (by simp [hh0])
          rw [hyh0] at this
          exact absurd this (by simp)
      have hL1 : List.find? (fun g => (x :: y :: ys).all fun h => !lt g h)
          (x :: y :: ys) =
          List.find? (fun g => (x :: y :: ys).all fun h => !lt g h) ys := by
        rw [List.find?_cons_of_neg _ (by simp [hpxf]),
          List.find?_cons_of_neg _ (by simp [hp1y])]
      have hL2 : List.find? (fun g => (x :: ys).all fun h => !lt g h)
          (x :: ys) =
          List.find? (fun g => (x :: ys).all fun h => !lt g h) ys := by
        rw [List.find?_cons_of_neg _ (by simp [hpx2f])]
      rw [hL1, hL2]
      apply find?_congr
      intro a ha
      simp only [List.all_cons]
      by_cases hax : lt a x = true
      · simp [hax]
      · have haxf : lt a x = false := by
          cases hq : lt a x
          · rfl
          · exact absurd hq hax
        have hayf : lt a y = false := hneg a x y haxf hxyf
        simp [haxf, hayf]

theorem pyMax_eq_firstMax {α : Type _} {lt : α → α → Bool}
    (hirr : ∀ a, lt a a = false)
    (htrans : ∀ a b c, lt a b = true → lt b c = true → lt a c = true)
    (hneg : ∀ a b c, lt a b = false → lt b c = false → lt a c = false) :
    ∀ (l : List α), pyMax lt l = firstMax lt l := by
  intro l
  cases l with
  | nil => rfl
  | cons x xs =>
    induction xs generalizing x with
    | nil =>
      rw [firstMax, List.find?_cons_of_pos _ (by simp [List.all_cons, hirr])]
      rfl
    | cons y ys ih =>
      have hstep : pyMax lt (x :: y :: ys) =
          pyMax lt ((if lt x y then y else x) :: ys) := by
        rw [pyMax, pyMax, List.foldl_cons]
      rw [hstep, ih (if lt x y then y else x),
        firstMax_step hirr htrans hneg]

theorem mtimeLt_irrefl : ∀ a : DirEntry, mtimeLt a a = false := by
  intro a
  simp [mtimeLt]

theorem mtimeLt_trans : ∀ a b c : DirEntry, mtimeLt a b = true →
    mtimeLt b c = true → mtimeLt a c = true := by
  intro a b c h1 h2
  simp only [mtimeLt, decide_eq_true_eq] at h1 h2 ⊢
  omega

theorem mtimeLt_negtrans : ∀ a b c : DirEntry, mtimeLt a b = false →
    mtimeLt b c = false → mtimeLt a c = false := by
  intro a b c h1 h2
  simp only [mtimeLt, decide_eq_false_iff_not] at h1 h2 ⊢
  omega

theorem stemLt_irrefl : ∀ a : DirEntry, stemLt a a = false := by
  intro a
  simp [stemLt, chLt_irrefl]

theorem stemLt_trans : ∀ a b c : DirEntry, stemLt a b = true →
    stemLt b c = true → stemLt a c = true := by
  intro a b c h1 h2
  exact chLt_trans _ _ _ h1 h2

theorem stemLt_negtrans : ∀ a b c : DirEntry, stemLt a b = false →
    stemLt b c = false → stemLt a c = false := by
  intro a b c h1 h2
  exact chLt_negtrans h1 h2

/-- C8 counterexample: `db.latest_file` breaks a modification-time tie by
directory-listing order (Python `max` keeps the first maximal element of
the `glob` iteration, whose order is arbitrary), not by lexicographic file
name: listed with `b.csv` first, `b.csv` wins over the lexicographically
smaller `a.csv`.  And `data_layer.get_latest_snapshot` picks the greatest
stem regardless of modification time: the stem-later file wins even with a
far older mtime. -/
theorem c8_counterexample :
    latest_file [⟨"b.csv", 5, true⟩, ⟨"a.csv", 5, true⟩] =
      some ⟨"b.csv", 5, true⟩ ∧
    chLt "a.csv".data "b.csv".data = true ∧
    get_latest_snapshot "inv"
        [⟨"inv_20240101_000000.csv", 100, true⟩,
         ⟨"inv_20240202_000000.csv", 1, true⟩] =
      some ⟨"inv_20240202_000000.csv", 1, true⟩ := by
  refine ⟨by decide, by decide, by decide⟩

/-- C8 amended: `latest_file` returns `None` exactly when the directory
holds no `.csv` files, and otherwise the FIRST file in directory-listing
order whose modification time is maximal (no lexicographic tie-break),
while the `data_layer.get_latest_snapshot` variant returns the matching
file with the lexicographically greatest stem, ignoring modification times
entirely. -/
theorem c8_latest_characterization :
    (∀ entries, latest_file entries = firstMax mtimeLt (csvFiles entries)) ∧
    (∀ entries, latest_file entries = none ↔ csvFiles entries = []) ∧
    (∀ name entries, get_latest_snapshot name entries =
      firstMax stemLt (entries.filter (snapMatches name))) := by
  refine ⟨?_, ?_, ?_⟩
  · intro entries
    exact pyMax_eq_firstMax mtimeLt_irrefl mtimeLt_trans mtimeLt_negtrans _
  · intro entries
    rw [latest_file]
    cases h : csvFiles entries with
    | nil => simp [pyMax]
    | cons a as => simp [pyMax]
  · intro name entries
    exact pyMax_eq_firstMax stemLt_irrefl stemLt_trans stemLt_negtrans _

/- ===== Association-list lemmas (team_state) ===== -/

theorem alFind_upsert_self {β : Type _} (k : String) (v : β) :
    ∀ l : List (String × β), alFind k (upsert k v l) = some v := by
  intro l
  induction l with
  | nil => simp [upsert, alFind]
  | cons p rest ih =>
    obtain ⟨k2, v2⟩ := p
    by_cases h : k2 = k
    · simp [upsert, alFind, h]
    · simp [upsert, alFind, h, ih]

theorem alFind_upsert_ne {β : Type _} {k k2 : String} (hne : k2 ≠ k) (v : β) :
    ∀ l : List (String × β), alFind k (upsert k2 v l) = alFind k l := by
  intro l
  induction l with
  | nil => simp [upsert, alFind, hne]
  | cons p rest ih =>
    obtain ⟨k3, v3⟩ := p
    by_cases h : k3 = k2
    · subst h
      have h2 : k3 ≠ k := hne
      simp [upsert, alFind, h2]
    · by_cases h2 : k3 = k
      · simp [upsert, alFind, h, h2, Ne.symm hne]
      · simp [upsert, alFind, h, h2, ih]

theorem mem_keys_upsert_self {β : Type _} (k : String) (v : β) :
    ∀ l : List (String × β), k ∈ (upsert k v l).map Prod.fst := by
  intro l
  induction l with
  | nil => simp [upsert]
  | cons p rest ih =>
    obtain ⟨k2, v2⟩ := p
    by_cases h : k2 = k
    · simp [upsert, h]
    · simp only [upsert, if_neg h, List.map_cons]
      exact List.mem_cons_of_mem _ ih

theorem mem_keys_upsert_mono {β : Type _} (k2 : String) (v : β) {k : String} :
    ∀ l : List (String × β), k ∈ l.map Prod.fst →
      k ∈ (upsert k2 v l).map Prod.fst := by
  intro l
  induction l with
  | nil => intro h; simp at h
  | cons p rest ih =>
    obtain ⟨k3, v3⟩ := p
    intro h
    rcases List.mem_cons.mp h with h1 | h1
    · by_cases hk : k3 = k2
      · simp [upsert, hk, h1]
      · simp only [upsert, if_neg hk, List.map_cons]
        exact List.mem_cons.mpr (Or.inl h1)
    · by_cases hk : k3 = k2
      · simp only [upsert, if_pos hk, List.map_cons]
        exact List.mem_cons_of_mem _ h1
      · simp only [upsert, if_neg hk, List.map_cons]
        exact List.mem_cons_of_mem _ (ih h1)

theorem alFind_erase_ne {β : Type _} {k k2 : String} (hne : k2 ≠ k) :
    ∀ l : List (String × β), alFind k (alErase k2 l) = alFind k l := by
  intro l
  induction l with
  | nil => simp [alErase]
  | cons p rest ih =>
    obtain ⟨k3, v3⟩ := p
    by_cases h : k3 = k2
    · subst h
      have h2 : k3 ≠ k := hne
      simp [alErase, alFind, h2]
    · by_cases h2 : k3 = k
      · simp [alErase, alFind, h, h2, Ne.symm hne]
      · simp [alErase, alFind, h, h2, ih]

theorem alFind_ne_nil {β : Type _} {l : List (String × β)} {k : String}
    {v : β} (h : alFind k l = some v) : l ≠ [] := by
  intro he
  subst he
  simp [alFind] at h

theorem caseLe_total : ∀ a b : String, (caseLe a b || caseLe b a) = true := by
  intro a b
  rw [caseLe, caseLe]
  cases h1 : chLt (toLowerCh b.data) (toLowerCh a.data)
  · simp
  · cases h2 : chLt (toLowerCh a.data) (toLowerCh b.data)
    · simp
    · have h3 := chLt_asymm h1
      rw [h2] at h3
      exact absurd h3 (by simp)

theorem caseLe_trans : ∀ a b c : String, caseLe a b = true →
    caseLe b c = true → caseLe a c = true := by
  intro a b c h1 h2
  rw [caseLe] at h1 h2 ⊢
  simp only [Bool.not_eq_true'] at h1 h2 ⊢
  exact chLt_negtrans h2 h1

theorem writeStoreFS_free {st : TeamFS} (hlock : st.lockBusy = false)
    (s : Store) : writeStoreFS st s = { st with file := .valid s } := by
  simp [writeStoreFS, write_store, write_store_attempt, hlock]

theorem read_store_valid {st : TeamFS} (hlock : st.lockBusy = false)
    (s : Store) : read_store { st with file := .valid s } = s := by
  simp [read_store, hlock]

/- ===== Workspace round-trip (C7) ===== -/

theorem jsonCopy_eq : ∀ j, jsonCopy j = j
  | .null => rfl
  | .bool _ => rfl
  | .num _ => rfl
  | .str _ => rfl
  | .arrNil => rfl
  | .arr h t => by rw [jsonCopy, jsonCopy_eq h, jsonCopy_eq t]
  | .objNil => rfl
  | .obj k v t => by rw [jsonCopy, jsonCopy_eq v, jsonCopy_eq t]

theorem pyOrEmptyObj_obj {payload : Json} (hobj : isObj payload = true) :
    pyOrEmptyObj payload = payload := by
  cases payload <;> simp_all [isObj, pyOrEmptyObj, pyFalsy]

/-- C7: for valid feature and workspace names and a JSON-object payload,
`save_workspace` followed by `load_workspace` returns a value deeply equal
to the payload (the state is otherwise untouched by the load); the value
handed back is produced by `_json_copy`, a serialize-and-reparse rebuild of
the stored tree, so it shares no structure with the stored document. -/
theorem c7_workspace_roundtrip (st : TeamFS) (feature name : String)
    (payload : Json) (default : Option Json) (st2 : TeamFS) (fk wn : String)
    (hf : normalize_feature feature = .ok fk)
    (hn : normalize_workspace name = .ok wn)
    (hobj : isObj payload = true)
    (hlock : st.lockBusy = false)
    (hsave : save_workspace st feature name payload = .ok st2) :
    load_workspace st2 feature name default = .ok (payload, st2) := by
  rw [save_workspace, hf, hn] at hsave
  simp only [bind, Except.bind] at hsave
  have hst2 : st2 = writeStoreFS st
      (upsert fk (upsert wn (jsonCopy (pyOrEmptyObj payload))
        ((alFind fk (read_store st)).getD [])) (read_store st)) :=
    (Except.ok.inj hsave).symm
  rw [pyOrEmptyObj_obj hobj, jsonCopy_eq, writeStoreFS_free hlock] at hst2
  have hrs : read_store st2 =
      upsert fk (upsert wn payload ((alFind fk (read_store st)).getD []))
        (read_store st) := by
    rw [hst2, read_store_valid hlock]
  rw [load_workspace, hf, hn]
  simp only [bind, Except.bind]
  rw [hrs, alFind_upsert_self, Option.getD_some, alFind_upsert_self]
  simp [jsonCopy_eq]

/-- Witness for C7: saving and loading a one-field draft payload in an
empty store round-trips. -/
theorem c7_workspace_roundtrip_witness :
    load_workspace
        ⟨.valid [("inventory", [("Line Crew", .obj "a" (.num 1) .objNil)])],
          false⟩
        "inventory" "Line Crew" none =
      .ok (.obj "a" (.num 1) .objNil,
        ⟨.valid [("inventory", [("Line Crew", .obj "a" (.num 1) .objNil)])],
          false⟩) :=
  c7_workspace_roundtrip ⟨.missing, false⟩ "inventory" "Line Crew"
    (.obj "a" (.num 1) .objNil) none
    ⟨.valid [("inventory", [("Line Crew", .obj "a" (.num 1) .objNil)])], false⟩
    "inventory" "Line Crew" rfl rfl rfl rfl rfl

/- ===== Case-sensitive workspace identity (C10) ===== -/

/-- C10: workspace names that normalize to strings differing only in
letter case denote distinct workspaces: saving under each name stores
independent payloads, `load_workspace` retrieves each unchanged,
`list_workspaces` lists both preserved-case names in a case-insensitively
sorted order, and deleting one leaves the other's payload intact. -/
theorem c10_workspace_case_sensitive (st : TeamFS) (feature n1 n2 : String)
    (p1 p2 : Json) (fk w1 w2 : String) (st1 st2 : TeamFS)
    (hf : normalize_feature feature = .ok fk)
    (h1 : normalize_workspace n1 = .ok w1)
    (h2 : normalize_workspace n2 = .ok w2)
    (hcase : toLowerCh w1.data = toLowerCh w2.data)
    (hne : w1 ≠ w2)
    (hobj1 : isObj p1 = true) (hobj2 : isObj p2 = true)
    (hlock : st.lockBusy = false)
    (hs1 : save_workspace st feature n1 p1 = .ok st1)
    (hs2 : save_workspace st1 feature n2 p2 = .ok st2) :
    load_workspace st2 feature n1 none = .ok (p1, st2) ∧
    load_workspace st2 feature n2 none = .ok (p2, st2) ∧
    (∃ names, list_workspaces st2 feature = .ok names ∧ w1 ∈ names ∧
      w2 ∈ names ∧ names.Pairwise (fun a b => caseLe a b = true)) ∧
    (∃ st3, delete_workspace st2 feature n1 = .ok st3 ∧
      load_workspace st3 feature n2 none = .ok (p2, st3)) := by
  rw [save_workspace, hf, h1] at hs1
  simp only [bind, Except.bind] at hs1
  have hst1 : st1 = { st with file := StoreFile.valid (upsert fk (upsert w1 p1 ((alFind fk (read_store st)).getD [])) (read_store st)) } := by
    have hq := (Except.ok.inj hs1).symm
    rw [pyOrEmptyObj_obj hobj1, jsonCopy_eq, writeStoreFS_free hlock] at hq
    exact hq
  have hlock1 : st1.lockBusy = false := by
    rw [hst1]
    exact hlock
  have hrs1 : read_store st1 =
      upsert fk (upsert w1 p1 ((alFind fk (read_store st)).getD []))
        (read_store st) := by
    rw [hst1, read_store_valid hlock]
  rw [save_workspace, hf, h2] at hs2
  simp only [bind, Except.bind] at hs2
  have hst2 : st2 = { st1 with file := StoreFile.valid (upsert fk (upsert w2 p2 ((alFind fk (read_store st1)).getD [])) (read_store st1)) } := by
    have hq := (Except.ok.inj hs2).symm
    rw [pyOrEmptyObj_obj hobj2, jsonCopy_eq, writeStoreFS_free hlock1] at hq
    exact hq
  rw [hrs1, alFind_upsert_self, Option.getD_some] at hst2
  have hlock2 : st2.lockBusy = false := by
    rw [hst2]
    exact hlock1
  have hrs2 : read_store st2 =
      upsert fk
        (upsert w2 p2 (upsert w1 p1 ((alFind fk (read_store st)).getD [])))
        (upsert fk (upsert w1 p1 ((alFind fk (read_store st)).getD []))
          (read_store st)) := by
    rw [hst2, read_store_valid hlock1]
  have hfind1 : alFind w1
      (upsert w2 p2 (upsert w1 p1 ((alFind fk (read_store st)).getD []))) =
      some p1 := by
    rw [alFind_upsert_ne (Ne.symm hne), alFind_upsert_self]
  have hfind2 : alFind w2
      (upsert w2 p2 (upsert w1 p1 ((alFind fk (read_store st)).getD []))) =
      some p2 := alFind_upsert_self _ _ _
  refine ⟨?_, ?_, ?_, ?_⟩
  · rw [load_workspace, hf, h1]
    simp only [bind, Except.bind, hrs2, alFind_upsert_self, Option.getD_some,
      hfind1, jsonCopy_eq]
  · rw [load_workspace, hf, h2]
    simp only [bind, Except.bind, hrs2, alFind_upsert_self, Option.getD_some,
      hfind2, jsonCopy_eq]
  · refine ⟨stableSort caseLe
        ((upsert w2 p2 (upsert w1 p1 ((alFind fk (read_store st)).getD []))).map
          Prod.fst), ?_, ?_, ?_, ?_⟩
    · rw [list_workspaces, hf]
      simp only [bind, Except.bind, hrs2, alFind_upsert_self, Option.getD_some]
    · exact mem_stableSort.mpr
        (mem_keys_upsert_mono w2 p2 _ (mem_keys_upsert_self w1 p1 _))
    · exact mem_stableSort.mpr (mem_keys_upsert_self w2 p2 _)
    · exact sorted_stableSort caseLe_total caseLe_trans _
  · have hb2ne : alErase w1
        (upsert w2 p2 (upsert w1 p1 ((alFind fk (read_store st)).getD []))) ≠
        [] := by
      apply alFind_ne_nil (k := w2) (v := p2)
      rw [alFind_erase_ne hne, hfind2]
    refine ⟨writeStoreFS st2
      (upsert fk
        (alErase w1
          (upsert w2 p2 (upsert w1 p1 ((alFind fk (read_store st)).getD []))))
        (upsert fk
          (upsert w2 p2 (upsert w1 p1 ((alFind fk (read_store st)).getD [])))
          (upsert fk (upsert w1 p1 ((alFind fk (read_store st)).getD []))
            (read_store st)))), ?_, ?_⟩
    · rw [delete_workspace, hf, h1]
      simp only [bind, Except.bind, hrs2, alFind_upsert_self, hfind1]
      rw [if_neg hb2ne]
    · rw [load_workspace, hf, h2]
      simp only [bind, Except.bind, writeStoreFS_free hlock2,
        read_store_valid hlock2, alFind_upsert_self, Option.getD_some,
        alFind_erase_ne hne, hfind2, jsonCopy_eq]

/-- Witness for C10: `Main Floor` and `main floor` are distinct workspaces
with independent payloads; listing shows both preserved-case names
case-insensitively sorted; deleting one keeps the other. -/
theorem c10_workspace_case_sensitive_witness :
    load_workspace
        ⟨.valid [("ordering",
          [("Main Floor", .obj "a" (.num 1) .objNil),
           ("main floor", .objNil)])], false⟩
        "ordering" "Main Floor" none =
      .ok (.obj "a" (.num 1) .objNil,
        ⟨.valid [("ordering",
          [("Main Floor", .obj "a" (.num 1) .objNil),
           ("main floor", .objNil)])], false⟩) ∧
    load_workspace
        ⟨.valid [("ordering",
          [("Main Floor", .obj "a" (.num 1) .objNil),
           ("main floor", .objNil)])], false⟩
        "ordering" "main floor" none =
      .ok (.objNil,
        ⟨.valid [("ordering",
          [("Main Floor", .obj "a" (.num 1) .objNil),
           ("main floor", .objNil)])], false⟩) ∧
    (∃ names, list_workspaces
        ⟨.valid [("ordering",
          [("Main Floor", .obj "a" (.num 1) .objNil),
           ("main floor", .objNil)])], false⟩ "ordering" = .ok names ∧
      "Main Floor" ∈ names ∧ "main floor" ∈ names ∧
      names.Pairwise (fun a b => caseLe a b = true)) ∧
    (∃ st3, delete_workspace
        ⟨.valid [("ordering",
          [("Main Floor", .obj "a" (.num 1) .objNil),
           ("main floor", .objNil)])], false⟩ "ordering" "Main Floor" =
        .ok st3 ∧
      load_workspace st3 "ordering" "main floor" none = .ok (.objNil, st3)) :=
  c10_workspace_case_sensitive ⟨.missing, false⟩ "ordering" "Main Floor"
    "main floor" (.obj "a" (.num 1) .objNil) .objNil "ordering" "Main Floor"
    "main floor"
    ⟨.valid [("ordering", [("Main Floor", .obj "a" (.num 1) .objNil)])], false⟩
    ⟨.valid [("ordering",
      [("Main Floor", .obj "a" (.num 1) .objNil),
       ("main floor", .objNil)])], false⟩
    rfl rfl rfl rfl (by decide) rfl rfl rfl rfl rfl

/- ===== C9: path resolution under the data root ===== -/

theorem dropWhile_of_all_neg {p : Char → Bool} :
    ∀ {l : List Char}, (∀ c ∈ l, p c = false) → l.dropWhile p = l := by
  intro l h
  cases l with
  | nil => rfl
  | cons a as =>
    rw [List.dropWhile_cons, if_neg (by simp [h a (List.mem_cons_self a as)])]

theorem trimCh_of_no_ws {l : List Char} (h : ∀ c ∈ l, isWs c = false) :
    trimCh l = l := by
  rw [trimCh, dropWhile_of_all_neg h,
    dropWhile_of_all_neg (fun c hc => h c (List.mem_reverse.mp hc))]
  exact List.reverse_reverse l

theorem strMk_data (s : String) : String.mk s.data = s := rfl

theorem strData_append (s t : String) : (s ++ t).data = s.data ++ t.data := rfl

theorem segsAcc_no_slash :
    ∀ (l acc : List Char), ('/' : Char) ∉ l → (acc = [] → l ≠ []) →
      segsAcc acc l = [acc.reverse ++ l] := by
  intro l
  induction l with
  | nil =>
    intro acc _ hne
    have hacc : ¬ acc = [] := fun he => hne he rfl
    simp [segsAcc, hacc]
  | cons c cs ih =>
    intro acc hsl _
    have hc : ¬ c = '/' := fun he => hsl (by rw [he]; exact List.mem_cons_self _ _)
    rw [segsAcc, if_neg hc,
      ih (c :: acc) (fun hm => hsl (List.mem_cons_of_mem c hm))
        (fun he => (List.cons_ne_nil c acc he).elim)]
    simp

theorem parseSegs_single {s : String} (hs : ('/' : Char) ∉ s.data)
    (hne : s.data ≠ []) (hdot : s ≠ ".") : parseSegs s = [s] := by
  rw [parseSegs, segsAcc_no_slash s.data [] hs (fun _ => hne)]
  simp only [List.reverse_nil, List.nil_append, List.map_cons, List.map_nil]
  rw [strMk_data]
  simp [hdot]

theorem foldl_normSegs_no_dotdot :
    ∀ (l acc : List String), (∀ seg ∈ l, seg ≠ "..") →
      l.foldl (fun acc seg => if seg = ".." then acc.dropLast else acc ++ [seg])
        acc = acc ++ l := by
  intro l
  induction l with
  | nil => intro acc _; simp
  | cons s rest ih =>
    intro acc h
    rw [List.foldl_cons, if_neg (h s (List.mem_cons_self s rest)),
      ih (acc ++ [s]) (fun x hx => h x (List.mem_cons_of_mem s hx))]
    simp

theorem isPrefixOf_append_self (l t : List String) :
    l.isPrefixOf (l ++ t) = true :=
  List.isPrefixOf_iff_prefix.mpr (List.prefix_append l t)

theorem resolve_underRoot (name : String)
    (habs : isAbsStr (resolveInput name) = false)
    (hdots : ∀ seg ∈ parseSegs (resolveInput name), seg ≠ "..") :
    underRoot (resolvePath name) = true := by
  rw [resolvePath, if_neg (by simp [habs])]
  show (!false &&
    DATA_ROOT.isPrefixOf
      (normSegs (DATA_ROOT ++ parseSegs (resolveInput name)))) = true
  simp only [Bool.not_false, Bool.true_and]
  rw [normSegs, List.foldl_append]
  have h0 :
      List.foldl
        (fun acc seg => if seg = ".." then acc.dropLast else acc ++ [seg])
        ([] : List String) DATA_ROOT = DATA_ROOT := by decide
  rw [h0, foldl_normSegs_no_dotdot _ _ hdots]
  exact isPrefixOf_append_self DATA_ROOT _

theorem mem_stripDash {c : Char} {l : List Char} (h : c ∈ stripDash l) :
    c ∈ l := by
  rw [stripDash] at h
  have h1 := List.mem_reverse.mp h
  have h2 := (List.dropWhile_sublist _).subset h1
  have h3 := List.mem_reverse.mp h2
  exact (List.dropWhile_sublist _).subset h3

theorem mem_squeezeDash : ∀ {l : List Char} {c : Char},
    c ∈ squeezeDash l → c ∈ l := by
  intro l
  induction l with
  | nil => intro c hc; simpa [squeezeDash] using hc
  | cons a tail ih =>
    cases tail with
    | nil => intro c hc; simpa [squeezeDash] using hc
    | cons b rest =>
      intro c hc
      rw [squeezeDash] at hc
      by_cases hd : (a = '-' && b = '-') = true
      · rw [if_pos hd] at hc
        exact List.mem_cons_of_mem a (ih hc)
      · rw [if_neg hd] at hc
        rcases List.mem_cons.mp hc with hca | hcm
        · rw [hca]; exact List.mem_cons_self a (b :: rest)
        · exact List.mem_cons_of_mem a (ih hcm)

theorem slug_chars (v : String) :
    ∀ c ∈ (slugify v).data, isSlugChar c = true ∨ c = '-' := by
  intro c hc
  simp only [slugify] at hc
  by_cases hnil :
      stripDash (squeezeDash (dashify (toLowerCh (trimCh v.data)))) = []
  · rw [if_pos hnil] at hc
    exact Or.inl
      ((by decide : ∀ x ∈ ("vendor" : String).data, isSlugChar x = true) c hc)
  · rw [if_neg hnil] at hc
    have hc2 : c ∈ stripDash (squeezeDash (dashify (toLowerCh (trimCh v.data)))) :=
      hc
    have h4 : c ∈ dashify (toLowerCh (trimCh v.data)) :=
      mem_squeezeDash (mem_stripDash hc2)
    rw [dashify] at h4
    rcases List.mem_map.mp h4 with ⟨a, _, ha⟩
    by_cases hs : isSlugChar a = true
    · rw [if_pos hs] at ha
      exact Or.inl (ha ▸ hs)
    · rw [if_neg hs] at ha
      exact Or.inr ha.symm

theorem slugChar_props {c : Char} (h : isSlugChar c = true ∨ c = '-') :
    isWs c = false ∧ c ≠ '/' ∧ c ≠ '.' := by
  rcases h with h | h
  · simp only [isSlugChar, Bool.or_eq_true, Bool.and_eq_true,
      decide_eq_true_eq] at h
    refine ⟨?_, ?_, ?_⟩
    · cases hq : isWs c
      · rfl
      · exfalso
        simp only [isWs, Bool.or_eq_true, decide_eq_true_eq] at hq
        have hb : c.toNat = 32 ∨ c.toNat = 9 ∨ c.toNat = 10 ∨
            c.toNat = 13 ∨ c.toNat = 11 ∨ c.toNat = 12 := by
          rcases hq with ((((hq | hq) | hq) | hq) | hq) | hq <;>
            rw [hq] <;> decide
        omega
    · intro he; rw [he] at h; exact absurd h (by decide)
    · intro he; rw [he] at h; exact absurd h (by decide)
  · subst h
    exact ⟨by decide, by decide, by decide⟩

theorem slug_ne_nil (v : String) : (slugify v).data ≠ [] := by
  simp only [slugify]
  by_cases hnil :
      stripDash (squeezeDash (dashify (toLowerCh (trimCh v.data)))) = []
  · rw [if_pos hnil]; decide
  · rw [if_neg hnil]; exact hnil

theorem slug_trim (v : String) : strTrim (slugify v) = slugify v := by
  rw [strTrim,
    trimCh_of_no_ws (fun c hc => (slugChar_props (slug_chars v c hc)).1)]

theorem slug_noCsv (v : String) : hasCsvExt (slugify v) = false := by
  cases hq : hasCsvExt (slugify v)
  · rfl
  · exfalso
    rw [hasCsvExt] at hq
    have hsuf : (".csv" : String).data <:+ (slugify v).data :=
      List.isSuffixOf_iff_suffix.mp hq
    rcases hsuf with ⟨t, ht⟩
    have hmem : ('.' : Char) ∈ (slugify v).data := by
      rw [← ht]
      exact List.mem_append.mpr (Or.inr (by decide))
    exact (slugChar_props (slug_chars v _ hmem)).2.2 rfl

theorem slug_resolveInput (v : String) :
    resolveInput (slugify v) = slugify v ++ ".csv" := by
  simp only [resolveInput]
  rw [slug_trim, if_neg (by simp [slug_noCsv v])]

theorem slug_abs (v : String) : isAbsStr (slugify v ++ ".csv") = false := by
  cases hd : (slugify v).data with
  | nil => exact absurd hd (slug_ne_nil v)
  | cons c0 rest =>
    have hdata : (slugify v ++ ".csv").data = c0 :: (rest ++ (".csv" : String).data) := by
      rw [strData_append, hd]; rfl
    have hc0 : c0 ≠ '/' := by
      have hm : c0 ∈ (slugify v).data := by
        rw [hd]; exact List.mem_cons_self c0 rest
      exact (slugChar_props (slug_chars v c0 hm)).2.1
    simp only [isAbsStr, hdata]
    simp [hc0]

theorem slug_csv_ne {v : String} {w : String}
    (hw : w.data.length ≤ 2) : slugify v ++ ".csv" ≠ w := by
  intro he
  have hd := congrArg String.data he
  rw [strData_append] at hd
  have hl := congrArg List.length hd
  rw [List.length_append] at hl
  have h4 : (".csv" : String).data.length = 4 := rfl
  omega

theorem slug_segs (v : String) :
    parseSegs (slugify v ++ ".csv") = [slugify v ++ ".csv"] := by
  apply parseSegs_single
  · rw [strData_append]
    intro hm
    rcases List.mem_append.mp hm with hm | hm
    · exact (slugChar_props (slug_chars v _ hm)).2.1 rfl
    · revert hm; decide
  · rw [strData_append]
    intro he
    exact slug_ne_nil v (List.append_eq_nil.mp he).1
  · exact slug_csv_ne (by decide)

theorem slug_underRoot (v : String) :
    underRoot (resolvePath (slugify v)) = true := by
  apply resolve_underRoot
  · rw [slug_resolveInput]; exact slug_abs v
  · rw [slug_resolveInput, slug_segs]
    intro seg hs
    rw [List.mem_singleton] at hs
    rw [hs]
    exact slug_csv_ne (by decide)

/-- C9 counterexample: `db._resolve` does not reject or normalize path
traversal.  The table name `"../evil"` resolves to the relative path
`data/../evil.csv`, whose lexical normalization `evil.csv` escapes the
`data` root, so the resolved file does not lie inside the configured root
data directory. -/
theorem c9_counterexample :
    resolvePath "../evil" = (false, ["data", "..", "evil.csv"]) ∧
      underRoot (resolvePath "../evil") = false := by
  constructor
  · decide
  · decide

/-- C9 (amended): `db._resolve` itself performs no traversal check, but
every resolved name whose stripped, `.csv`-suffixed form is relative and
contains no `..` segment stays under the `data` root, and in particular
every vendor name routed through `constants.slugify` (which keeps only
`[a-z0-9]` and `-` characters) always resolves under the root. -/
theorem c9_resolve_amended (name : String)
    (habs : isAbsStr (resolveInput name) = false)
    (hdots : ∀ seg ∈ parseSegs (resolveInput name), seg ≠ "..") :
    underRoot (resolvePath name) = true ∧
      ∀ v, underRoot (resolvePath (slugify v)) = true :=
  ⟨resolve_underRoot name habs hdots, slug_underRoot⟩

/-- C9 witness: the concrete relative name `"catalogs/pfg"` satisfies both
hypotheses and resolves under the root. -/
theorem c9_resolve_amended_witness :
    (isAbsStr (resolveInput "catalogs/pfg") = false ∧
      ∀ seg ∈ parseSegs (resolveInput "catalogs/pfg"), seg ≠ "..") ∧
    (underRoot (resolvePath "catalogs/pfg") = true ∧
      ∀ v, underRoot (resolvePath (slugify v)) = true) :=
  ⟨⟨by decide, by decide⟩,
    c9_resolve_amended "catalogs/pfg" (by decide) (by decide)⟩
